import Mathlib

/-!
Verification development for the PrioQueueCC repository: four meldable
priority-queue variants (LH2 leftist heap, MD3 min-leaf-distance heap,
PH2/PH3 pairing heaps) plus a pointer-identity hash set used by the
validators.

The development contains two embeddings of the C++ sources:

* a functional embedding of the tree-level kernels (`LH`, `MD`, `PH2`,
  `PH3` namespaces), used for the general theorems about ordering,
  merging and traversal;
* an executable arena embedding (`Arena` namespace) that transliterates
  the pointer-mutating MD3 kernel statement by statement, used to
  evaluate the code on concrete inputs where the pointer structure
  itself is in question.

Numbers follow the sources: `short`/`int` leaf distances are embedded as
`Int` (no operation in the sources can overflow them on the inputs we
evaluate), pointer-sized hashes use explicit `% 2 ^ 64` reductions.
-/

set_option maxHeartbeats 1000000
set_option maxRecDepth 8000

-- ===========================================================================
-- Pointer-identity set (src/src/PointerMap.hpp, src/unnamed/part_002)
-- ===========================================================================

namespace PointerMap

/-- One row of `PointerMapT::_mapInfo`: capacity watermark, table length,
bias (fields `tcap`, `tlen`, `bias` of `HMapInfoT`). -/
structure HMapInfoT where
  tcap : Nat
  tlen : Nat
  bias : Nat
deriving DecidableEq, Repr

/-- `PointerMapT::_mapInfo`, without the all-zero sentinel row (the C++
`_mapSize` excludes it as well). -/
def mapInfo : List HMapInfoT :=
  [⟨132, 199, 46⟩,
   ⟨211, 317, 232⟩,
   ⟨347, 521, 117⟩,
   ⟨559, 839, 446⟩,
   ⟨911, 1367, 932⟩,
   ⟨1471, 2207, 1841⟩,
   ⟨2380, 3571, 611⟩,
   ⟨3852, 5779, 2938⟩,
   ⟨6232, 9349, 8649⟩,
   ⟨10087, 15131, 2684⟩,
   ⟨16315, 24473, 4742⟩,
   ⟨26400, 39601, 1240⟩,
   ⟨42719, 64079, 8242⟩,
   ⟨69120, 103681, 85552⟩,
   ⟨111839, 167759, 1378⟩,
   ⟨180960, 271441, 227794⟩,
   ⟨292804, 439207, 401250⟩,
   ⟨473760, 710641, 563733⟩,
   ⟨766568, 1149853, 266341⟩,
   ⟨1240327, 1860491, 954068⟩,
   ⟨2006899, 3010349, 2209622⟩,
   ⟨3247231, 4870847, 3751089⟩,
   ⟨5254131, 7881197, 7596128⟩,
   ⟨8501360, 12752041, 10281520⟩,
   ⟨13755491, 20633237, 3254000⟩,
   ⟨22256852, 33385279, 21651584⟩,
   ⟨36012347, 54018521, 27504137⟩,
   ⟨58269200, 87403801, 12181047⟩,
   ⟨94281552, 141422329, 52297426⟩,
   ⟨152550748, 228826123, 176097082⟩,
   ⟨246832300, 370248451, 222234335⟩]

/-- `PointerMapT::hash_ptr`: the Jenkins one-at-a-time finaliser on a
64-bit pointer value, folded to 32 bits. Every addition/shift is the
C++ `uintptr_t` operation, i.e. modulo `2 ^ 64`. -/
def hash_ptr (ptr : Nat) : Nat :=
  let m := 2 ^ 64
  let key := ptr % m
  let key := (key + (key <<< 12)) % m
  let key := key ^^^ (key >>> 22)
  let key := (key + (key <<< 4)) % m
  let key := key ^^^ (key >>> 9)
  let key := (key + (key <<< 10)) % m
  let key := key ^^^ (key >>> 2)
  let key := (key + (key <<< 7)) % m
  let key := key ^^^ (key >>> 12)
  let key := key ^^^ (key >>> 32)
  key % 2 ^ 32

/-- The probe step of `PointerMapT::_stepinfo`: `(phash & 127) + 1`. -/
def stepOf (p : Nat) : Nat :=
  (hash_ptr p &&& 127) + 1

/-- The start index of `PointerMapT::_stepinfo`:
`(uint64(phash) * tlen + bias) >> 32`. -/
def hashOf (p : Nat) (info : HMapInfoT) : Nat :=
  (hash_ptr p * info.tlen + info.bias) >>> 32

/-- The probing loop of `PointerMapT::insert` and `PointerMapT::lookup`:
advance `hash` by `step`, wrapping by a single subtraction, until the slot
is empty or already holds `p`.  The C++ loop is unbounded; the embedding
takes explicit fuel and returns `none` on exhaustion. -/
def probeLoop (table : List (Option Nat)) (p : Nat) (step : Nat) :
    Nat → Nat → Option Nat
  | _, 0 => none
  | hash, fuel + 1 =>
    match table.getD hash none with
    | none => some hash
    | some q =>
      if q = p then some hash
      else
        let h := hash + step
        let h := if table.length ≤ h then h - table.length else h
        probeLoop table p step h fuel

end PointerMap

-- ===========================================================================
-- C10: table lengths are coprime to [1,128]; probing covers the table;
--      insert finds a free slot when the table is not full.
-- ===========================================================================

namespace PointerMap

theorem stepOf_bounds (p : Nat) : 1 ≤ stepOf p ∧ stepOf p ≤ 128 := by
  unfold stepOf
  have h : hash_ptr p &&& 127 < 2 ^ 7 := Nat.and_lt_two_pow _ (by norm_num)
  norm_num at h
  omega

theorem mapInfo_coprime :
    ∀ e ∈ mapInfo, ∀ k : Nat, 1 ≤ k → k ≤ 128 → Nat.Coprime k e.tlen := by
  have hall : mapInfo.all
      (fun e => (List.range 128).all fun k => Nat.gcd (k + 1) e.tlen == 1) = true := by
    decide
  intro e he k hk1 hk2
  rw [List.all_eq_true] at hall
  have := hall e he
  rw [List.all_eq_true] at this
  have hk : k - 1 ∈ List.range 128 := by
    rw [List.mem_range]; omega
  have := this _ hk
  have hkk : k - 1 + 1 = k := by omega
  rw [hkk, beq_iff_eq] at this
  exact this

/-- If the probe step is coprime to the table length, distinct probe
indices land in distinct slots. -/
theorem probe_inj {tlen step : Nat} (hco : Nat.Coprime step tlen)
    (idx : Nat) {i j : Nat} (hi : i < tlen) (hj : j < tlen)
    (h : (idx + i * step) % tlen = (idx + j * step) % tlen) : i = j := by
  have h1 : (idx + i * step) ≡ (idx + j * step) [MOD tlen] := h
  have h2 : i * step ≡ j * step [MOD tlen] := Nat.ModEq.add_left_cancel' idx h1
  have h3 : i ≡ j [MOD tlen] := h2.cancel_right_of_coprime hco.symm
  have h4 : i % tlen = j % tlen := h3
  rwa [Nat.mod_eq_of_lt hi, Nat.mod_eq_of_lt hj] at h4

/-- Coverage: with a step coprime to the table length, the probe sequence
`idx, idx+step, idx+2*step, …` (mod `tlen`) visits every slot within the
first `tlen` probes. -/
theorem probe_covers {tlen step : Nat} (htl : 0 < tlen)
    (hco : Nat.Coprime step tlen) (idx : Nat) :
    ∀ j < tlen, ∃ i < tlen, (idx + i * step) % tlen = j := by
  intro j hj
  let f : Fin tlen → Fin tlen := fun i =>
    ⟨(idx + i.val * step) % tlen, Nat.mod_lt _ htl⟩
  have hinj : Function.Injective f := by
    intro a b hab
    have := congrArg Fin.val hab
    exact Fin.ext (probe_inj hco idx a.isLt b.isLt this)
  have hsurj : Function.Surjective f :=
    Finite.surjective_of_injective hinj
  obtain ⟨i, hi⟩ := hsurj ⟨j, hj⟩
  exact ⟨i.val, i.isLt, congrArg Fin.val hi⟩

theorem probeLoop_finds {table : List (Option Nat)} {p step : Nat}
    (hstep : step < table.length) (hp : some p ∉ table) :
    ∀ fuel hash, hash < table.length →
    (∃ i < fuel, table.getD ((hash + i * step) % table.length) none = none) →
    ∃ idx, probeLoop table p step hash fuel = some idx ∧
      idx < table.length ∧ table.getD idx none = none := by
  intro fuel
  induction fuel with
  | zero => intro hash _ h; obtain ⟨i, hi, _⟩ := h; omega
  | succ n ih =>
    intro hash hh h
    rw [probeLoop]
    cases hslot : table.getD hash none with
    | none => exact ⟨hash, rfl, hh, hslot⟩
    | some q =>
      have hq : q ≠ p := by
        intro hqp
        apply hp
        rw [← hqp]
        have : table.getD hash none = table.get ⟨hash, hh⟩ := by
          rw [List.getD_eq_getElem?_getD, List.getElem?_eq_getElem hh]
          rfl
        rw [this] at hslot
        rw [← hslot]
        exact List.get_mem table hash hh
      simp only [hq, if_false]
      have hwrap : (if table.length ≤ hash + step then
          hash + step - table.length else hash + step) =
          (hash + step) % table.length := by
        split
        · rw [Nat.mod_eq_sub_mod (by omega), Nat.mod_eq_of_lt (by omega)]
        · rw [Nat.mod_eq_of_lt (by omega)]
      rw [hwrap]
      apply ih _ (Nat.mod_lt _ (by omega))
      obtain ⟨i, hi, hfree⟩ := h
      cases i with
      | zero =>
        rw [Nat.zero_mul, Nat.add_zero, Nat.mod_eq_of_lt hh] at hfree
        rw [hfree] at hslot; cases hslot
      | succ i' =>
        refine ⟨i', by omega, ?_⟩
        rw [Nat.mod_add_mod]
        have harith : hash + step + i' * step = hash + (i' + 1) * step := by
          ring
        rw [harith]
        exact hfree

theorem mapInfo_tlen_lb : ∀ e ∈ mapInfo, 199 ≤ e.tlen := by decide

end PointerMap

/-- C10: every table length in `PointerMapT::_mapInfo` is coprime to every
integer in `[1,128]`; the per-key probe step lies in `[1,128]`; hence the
probe sequence `idx, idx+step, idx+2*step, …` (mod `tlen`) visits every
slot of the table, and the probing loop of `insert` finds a free slot
whenever the table holds an empty slot (and the key is not yet present). -/
theorem c10_probe_coverage :
    (∀ e ∈ PointerMap.mapInfo, ∀ k : Nat, 1 ≤ k → k ≤ 128 →
        Nat.Coprime k e.tlen) ∧
    (∀ p : Nat, 1 ≤ PointerMap.stepOf p ∧ PointerMap.stepOf p ≤ 128) ∧
    (∀ e ∈ PointerMap.mapInfo, ∀ p idx : Nat, ∀ j < e.tlen,
        ∃ i < e.tlen, (idx + i * PointerMap.stepOf p) % e.tlen = j) ∧
    (∀ e ∈ PointerMap.mapInfo, ∀ (table : List (Option Nat)) (p hash : Nat),
        table.length = e.tlen → hash < e.tlen →
        none ∈ table → some p ∉ table →
        ∃ idx, PointerMap.probeLoop table p (PointerMap.stepOf p) hash e.tlen
            = some idx ∧ idx < e.tlen ∧ table.getD idx none = none) := by
  refine ⟨PointerMap.mapInfo_coprime, PointerMap.stepOf_bounds, ?_, ?_⟩
  · intro e he p idx j hj
    have hs := PointerMap.stepOf_bounds p
    have htl := PointerMap.mapInfo_tlen_lb e he
    exact PointerMap.probe_covers (by omega)
      (PointerMap.mapInfo_coprime e he _ hs.1 hs.2) idx j hj
  · intro e he table p hash hlen hh hfree hp
    have hs := PointerMap.stepOf_bounds p
    have htl := PointerMap.mapInfo_tlen_lb e he
    have hco : Nat.Coprime (PointerMap.stepOf p) e.tlen :=
      PointerMap.mapInfo_coprime e he _ hs.1 hs.2
    obtain ⟨n, hn, hget⟩ := List.getElem_of_mem hfree
    obtain ⟨i, hi, hij⟩ :=
      PointerMap.probe_covers (by omega) hco hash n (by omega)
    have hmain := @PointerMap.probeLoop_finds table p (PointerMap.stepOf p)
      (by omega) hp e.tlen hash (by omega) ?_
    · obtain ⟨idx, h1, h2, h3⟩ := hmain
      exact ⟨idx, h1, by omega, h3⟩
    · refine ⟨i, hi, ?_⟩
      rw [hlen, hij, List.getD_eq_getElem?_getD, List.getElem?_eq_getElem hn,
        hget]
      rfl

/-- Witness for C10: the probing loop run on a concrete empty table of the
first configured length actually locates a free slot. -/
theorem c10_probe_coverage_witness :
    ∃ idx, PointerMap.probeLoop (List.replicate 199 none) 0
        (PointerMap.stepOf 0) 0 199 = some idx ∧ idx < 199 ∧
        (List.replicate 199 (none : Option Nat)).getD idx none = none :=
  c10_probe_coverage.2.2.2 ⟨132, 199, 46⟩ (by decide)
    (List.replicate 199 none) 0 0 (by simp) (by norm_num)
    (by simp [List.mem_replicate]) (by simp [List.mem_replicate])

-- ===========================================================================
-- Arena embedding of the MD3 kernel (src/src/mdqueue3.cpp), statement by
-- statement. Nodes live in a store indexed by allocation order; index 0 is
-- the root sentinel (`_m_root`, initialised `{ nullptr }`, so `dist = 1`).
-- Used to evaluate the pointer-mutating code on concrete inputs.
-- ===========================================================================

namespace Arena

/-- `MinDistHeapT::BaseNodeT` plus the payload of the typed node
(`_XNode::_m_value`, here an `Int` ordered by `std::less`). -/
structure ANode where
  lptr : Option Nat
  rptr : Option Nat
  pptr : Option Nat
  dist : Int
  key  : Int
deriving DecidableEq, Repr

abbrev Store := List ANode

def getN (s : Store) (i : Nat) : ANode :=
  s.getD i ⟨none, none, none, 0, 0⟩

def setN (s : Store) (i : Nat) (n : ANode) : Store := s.set i n

/-- A link slot `BaseNodeT**`: owning node plus side (`true` = `_m_lptr`). -/
abbrev Slot := Nat × Bool

def readSlot (s : Store) (sl : Slot) : Option Nat :=
  if sl.2 then (getN s sl.1).lptr else (getN s sl.1).rptr

def writeSlot (s : Store) (sl : Slot) (v : Option Nat) : Store :=
  let n := getN s sl.1
  if sl.2 then setN s sl.1 { n with lptr := v }
  else setN s sl.1 { n with rptr := v }

def setP (s : Store) (i : Nat) (v : Option Nat) : Store :=
  setN s i { getN s i with pptr := v }

def setDist (s : Store) (i : Nat) (v : Int) : Store :=
  setN s i { getN s i with dist := v }

/-- `node ? node->_m_dist : 0`, i.e. an absent child contributes 0. -/
def childDist (s : Store) (c : Option Nat) : Int :=
  match c with
  | none => 0
  | some i => (getN s i).dist

/-- Phase I of `MinDistHeapT::_merge`: interleave the two heaps along the
lighter side. Returns the store plus the final `root`, `link`, `h1`, `h2`
and `steps`.  The C++ loop runs until a heap is exhausted; the embedding
carries fuel that is not exhausted on any input evaluated here. -/
def mergeLoop : Nat → Store → Nat → Slot → Option Nat → Option Nat → Int →
    Store × Nat × Slot × Option Nat × Option Nat × Int
  | 0, s, root, link, h1, h2, steps => (s, root, link, h1, h2, steps)
  | fuel + 1, s, root, link, h1, h2, steps =>
    match h1, h2 with
    | some i1, some i2 =>
      let steps := steps + 1
      if (getN s i2).key < (getN s i1).key then
        let s := writeSlot s link (some i2)
        let s := setP s i2 (some root)
        let root := i2
        let n := getN s root
        let link : Slot :=
          if n.lptr = none ∨
              (n.rptr ≠ none ∧ childDist s n.rptr > childDist s n.lptr)
          then (root, true) else (root, false)
        mergeLoop fuel s root link (some i1) (readSlot s link) steps
      else
        let s := writeSlot s link (some i1)
        let s := setP s i1 (some root)
        let root := i1
        let n := getN s root
        let link : Slot :=
          if n.lptr = none ∨
              (n.rptr ≠ none ∧ childDist s n.rptr > childDist s n.lptr)
          then (root, true) else (root, false)
        mergeLoop fuel s root link (readSlot s link) (some i2) steps
    | _, _ => (s, root, link, h1, h2, steps)

/-- Phase III of `MinDistHeapT::_merge`: walk upward through the parent
pointers refreshing `dist`; after the forced `steps` nodes, stop as soon
as a recomputed value equals the stored one. -/
def distLoop : Nat → Store → Option Nat → Int → Store
  | 0, s, _, _ => s
  | fuel + 1, s, root?, steps =>
    match root? with
    | none => s
    | some r =>
      let n := getN s r
      let lcw := childDist s n.lptr
      let rcw := childDist s n.rptr
      let nnw := min lcw rcw + 1
      let steps := steps - 1
      if steps < 0 ∧ nnw = n.dist then s
      else distLoop fuel (setDist s r nnw) n.pptr steps

/-- `MinDistHeapT::_merge` (all three phases). -/
def merge (s : Store) (root : Nat) (link : Slot) (h1 h2 : Option Nat) :
    Store :=
  let fuel := s.length + 2
  let r := mergeLoop fuel s root link h1 h2 1
  match r with
  | (s, root, link, h1, h2, steps) =>
    let surv := match h1 with | some i => some i | none => h2
    let s := writeSlot s link surv
    let s := match surv with | some i => setP s i (some root) | none => s
    distLoop fuel s (some root) steps

/-- `MinDistHeapT::_tcut`.  Note that, as in the source, **both** branches
of the conditional meld two empty heaps into the parent's `_m_lptr` slot. -/
def tcut (s : Store) (node : Nat) : Store :=
  let root := (getN s node).pptr.getD 0
  let s :=
    if some node = (getN s root).lptr then merge s root (root, true) none none
    else merge s root (root, true) none none
  setP s node none

/-- `MinDistHeapT::_ncut`: replace `node` by the meld of its children,
routed through the parent slot that actually held `node`. -/
def ncut (s : Store) (node : Nat) : Store :=
  let root := (getN s node).pptr.getD 0
  let n := getN s node
  let s :=
    if some node = (getN s root).lptr then
      merge s root (root, true) n.lptr n.rptr
    else
      merge s root (root, false) n.lptr n.rptr
  setN s node { getN s node with lptr := none, rptr := none, pptr := none }

/-- `MinDistHeapT::_singleton` followed by `MinDistHeapT::_push`: allocate
a fresh node (next free index) and meld it with the tree under the
sentinel. -/
def push (s : Store) (k : Int) : Store :=
  let id := s.length
  let s := s ++ [⟨none, none, none, 1, k⟩]
  merge s 0 (0, true) (getN s 0).lptr (some id)

/-- `MinDistHeapT::_pop` (followed by the facade's `_destroy_node`; the
destroyed node keeps its index but is cleared exactly as the source
clears it: links null, `dist = 0`). -/
def pop (s : Store) : Store :=
  match (getN s 0).lptr with
  | none => s
  | some r =>
    let n := getN s r
    let s := merge s 0 (0, true) n.lptr n.rptr
    setN s r { getN s r with lptr := none, rptr := none, pptr := none, dist := 0 }

/-- `MinDistHeapT::_decrease`. -/
def decrease (s : Store) (node : Nat) : Store :=
  if some node = (getN s 0).lptr then s
  else
    let s := tcut s node
    merge s 0 (0, true) (getN s 0).lptr (some node)

/-- `MinDistHeapT::_reinsert` (the facade's `readjust`).  The sentinel's
left slot is read before `_tcut` runs; for every input evaluated here the
cut node is not the tree root, so both evaluation orders of the two
arguments coincide. -/
def reinsert (s : Store) (node : Nat) : Store :=
  let h1 := (getN s 0).lptr
  let s := tcut s node
  merge s 0 (0, true) h1 (some node)

/-- The caller-side key change that precedes `decrease`/`readjust`. -/
def setKey (s : Store) (node : Nat) (k : Int) : Store :=
  setN s node { getN s node with key := k }

/-- The empty heap: just the root sentinel (`BaseNodeT _m_root {nullptr}`,
so `dist` keeps its default initialiser 1). -/
def init : Store := [⟨none, none, none, 1, 0⟩]

/-- Node indices reachable from the sentinel through `_m_lptr`/`_m_rptr`
(cycle-safe: a visited node is not expanded again). -/
def reachAux : Nat → Store → List Nat → List Nat → List Nat
  | 0, _, _, vis => vis
  | _ + 1, _, [], vis => vis
  | fuel + 1, s, i :: rest, vis =>
    if i ∈ vis then reachAux fuel s rest vis
    else
      let n := getN s i
      let kids := (match n.lptr with | some a => [a] | none => []) ++
        (match n.rptr with | some a => [a] | none => [])
      reachAux fuel s (kids ++ rest) (i :: vis)

def reach (s : Store) : List Nat :=
  match (getN s 0).lptr with
  | none => []
  | some r => reachAux (4 * s.length + 8) s [r] []

/-- The leaf-distance equation of the spec (and of
`MinDistHeapT::validate_tree`): `dist = min(child dists) + 1` with an
absent child contributing 0. -/
def distOkAt (s : Store) (i : Nat) : Bool :=
  (getN s i).dist =
    min (childDist s (getN s i).lptr) (childDist s (getN s i).rptr) + 1

/-- The heap-order check of `MinDistHeapT::validate_tree`: no child's key
goes before its parent's key. -/
def heapOkAt (s : Store) (i : Nat) : Bool :=
  (match (getN s i).lptr with
   | none => true
   | some c => !(decide ((getN s c).key < (getN s i).key))) &&
  (match (getN s i).rptr with
   | none => true
   | some c => !(decide ((getN s c).key < (getN s i).key)))

def pushAll (s : Store) (ks : List Int) : Store :=
  ks.foldl push s

end Arena

/-- C1: refuted on the code.  In the MD3 heap built by pushing 1, 2, 3 the
node holding 3 (index 3) is the *right* child of the root (index 1).
`_tcut(3)` is claimed to null the parent slot that held the node and to
make the node unreachable; instead the code melds two empty heaps into the
parent's **left** slot (both branches of the conditional use `_m_lptr`),
so afterwards the parent's right slot still holds node 3, node 3 is still
reachable from the sentinel, and the left child (key 2) was detached
instead.  Only the back-link of node 3 is cleared as claimed. -/
theorem c1_tcut_right_child_refuted :
    (Arena.getN (Arena.pushAll Arena.init [1, 2, 3]) 1).rptr = some 3 ∧
    (Arena.getN (Arena.pushAll Arena.init [1, 2, 3]) 3).pptr = some 1 ∧
    (Arena.getN (Arena.tcut (Arena.pushAll Arena.init [1, 2, 3]) 3) 1).rptr
      = some 3 ∧
    (Arena.getN (Arena.tcut (Arena.pushAll Arena.init [1, 2, 3]) 3) 1).lptr
      = none ∧
    3 ∈ Arena.reach (Arena.tcut (Arena.pushAll Arena.init [1, 2, 3]) 3) ∧
    (Arena.getN (Arena.tcut (Arena.pushAll Arena.init [1, 2, 3]) 3) 3).pptr
      = none := by
  decide

/-- C2: refuted on the code for MD3.  Pushing 1..6 makes node 2 (key 2)
the left child of the root with child node 6 (key 6).  After the caller
raises the key of node 2 to 100, `readjust` — which the claim says ncuts
the node so that heap order is restored for an arbitrary key change — is
implemented by `MinDistHeapT::_reinsert` via `_tcut`, i.e. the *whole
subtree* is cut and melded back.  Node 2 keeps its child 6, and the
heap-order invariant is violated at node 2 (child key 6 < parent key 100)
although node 2 is still reachable. -/
theorem c2_readjust_md3_refuted :
    (Arena.getN (Arena.reinsert
        (Arena.setKey (Arena.pushAll Arena.init [1, 2, 3, 4, 5, 6]) 2 100) 2)
        2).lptr = some 6 ∧
    (Arena.getN (Arena.reinsert
        (Arena.setKey (Arena.pushAll Arena.init [1, 2, 3, 4, 5, 6]) 2 100) 2)
        6).key = 6 ∧
    (Arena.getN (Arena.reinsert
        (Arena.setKey (Arena.pushAll Arena.init [1, 2, 3, 4, 5, 6]) 2 100) 2)
        2).key = 100 ∧
    2 ∈ Arena.reach (Arena.reinsert
        (Arena.setKey (Arena.pushAll Arena.init [1, 2, 3, 4, 5, 6]) 2 100) 2) ∧
    Arena.heapOkAt (Arena.reinsert
        (Arena.setKey (Arena.pushAll Arena.init [1, 2, 3, 4, 5, 6]) 2 100) 2)
        2 = false := by
  decide

/-- The heap state of the C6 counterexample: push 10, 20, 30 (indices
1, 2, 3), reduce the key of node 3 to 5 and `decrease` it (this exercises
the `_tcut` left-slot slip on a right child and leaves the stale link
`1.rptr = 3`), push ten more keys, then `remove` (ncut) the seven nodes
of the root's right subtree. Every operation is a legal public call. -/
def c6state : Arena.Store :=
  [4, 5, 6, 8, 9, 10, 11].foldl Arena.ncut
    (Arena.pushAll
      (Arena.decrease
        (Arena.setKey (Arena.pushAll Arena.init [10, 20, 30]) 3 5) 3)
      [40, 50, 60, 70, 80, 90, 100, 110, 120, 130])

/-- C6: refuted on the code for MD3.  After the operation sequence of
`c6state`, node 1 (key 10) is reachable from the sentinel but stores
`dist = 3` while `min(dist(L), dist(R)) + 1 = min(2, 1) + 1 = 2`: the
leaf-distance equation the claim states for every node after every public
operation fails (the MD3 validator's own `ASSERT` would throw here). -/
theorem c6_dist_invariant_refuted :
    1 ∈ Arena.reach c6state ∧
    Arena.distOkAt c6state 1 = false ∧
    (Arena.getN c6state 1).dist = 3 ∧
    (Arena.getN c6state 1).lptr = some 7 ∧
    (Arena.getN c6state 7).dist = 2 ∧
    (Arena.getN c6state 1).rptr = some 3 ∧
    (Arena.getN c6state 3).dist = 1 := by
  decide

-- ===========================================================================
-- Strict weak orders over a boolean comparator (`_pred` / `_Comp`).
-- ===========================================================================

/-- A strict weak order, as required of the caller-supplied comparator:
irreflexive, transitive, with transitive incomparability. -/
structure IsSWO {α : Type} (lt : α → α → Bool) : Prop where
  irrefl : ∀ a, lt a a = false
  lt_trans : ∀ a b c, lt a b = true → lt b c = true → lt a c = true
  incomp_trans : ∀ a b c, lt a b = false → lt b a = false →
    lt b c = false → lt c b = false → lt a c = false

theorem IsSWO.asymm {α : Type} {lt : α → α → Bool} (h : IsSWO lt)
    {a b : α} (hab : lt a b = true) : lt b a = false := by
  by_contra hba
  rw [Bool.not_eq_false] at hba
  have := h.lt_trans a b a hab hba
  rw [h.irrefl a] at this
  cases this

/-- The complement relation `¬(· < ·)` is transitive for a strict weak
order: if `b` is not before `a` and `c` is not before `b` then `c` is not
before `a`. -/
theorem IsSWO.notlt_trans {α : Type} {lt : α → α → Bool} (h : IsSWO lt)
    {a b c : α} (hba : lt b a = false) (hcb : lt c b = false) :
    lt c a = false := by
  by_contra hca
  rw [Bool.not_eq_false] at hca
  by_cases hab : lt a b = true
  · have := h.lt_trans c a b hca hab
    rw [hcb] at this; cases this
  · rw [Bool.not_eq_true] at hab
    by_cases hbc : lt b c = true
    · have := h.lt_trans b c a hbc hca
      rw [hba] at this; cases this
    · rw [Bool.not_eq_true] at hbc
      have := h.incomp_trans c b a hcb hbc hba hab
      -- incomp c b, incomp b a → incomp c a, contradicting c < a
      rw [this] at hca; cases hca

/-- `std::less<int>` on naturals, as a boolean comparator. -/
def natLT : Nat → Nat → Bool := fun a b => decide (a < b)

theorem natBlt_swo : IsSWO natLT := by
  constructor
  · intro a; simp [natLT]
  · intro a b c h1 h2
    simp only [natLT, decide_eq_true_eq] at *
    omega
  · intro a b c h1 h2 h3 h4
    simp only [natLT, decide_eq_false_iff_not] at *
    omega

-- ===========================================================================
-- LH2: functional embedding of the leftist-heap kernel
-- (src/inc/lhqueue2.hpp, LeftistHeapEasyT implementation in phq3check.cpp).
-- ===========================================================================

namespace LH

/-- `LeftistHeapEasyT::BaseNodeT` plus the payload: a binary tree with a
`dist` field; `nil` is the null pointer. -/
inductive Tree (α : Type) where
  | nil : Tree α
  | node (key : α) (l : Tree α) (r : Tree α) (dist : Int) : Tree α
deriving DecidableEq, Repr

variable {α : Type}

/-- `node ? node->_m_dist : 0`. -/
def distOf : Tree α → Int
  | .nil => 0
  | .node _ _ _ d => d

/-- Null-pointer test. -/
def isNil : Tree α → Bool
  | .nil => true
  | _ => false

def size : Tree α → Nat
  | .nil => 0
  | .node _ l r _ => size l + size r + 1

/-- `LeftistHeapEasyT::_merge`: recursive merge along the right spine,
canonicalising by swapping children when the right one got heavier, then
recomputing `dist` as right-dist + 1. -/
def merge (lt : α → α → Bool) : Tree α → Tree α → Tree α
  | .nil, h2 => h2
  | h1, .nil => h1
  | .node k1 l1 r1 d1, .node k2 l2 r2 d2 =>
    if lt k2 k1 then
      if isNil l2 ||
          decide (distOf (merge lt r2 (.node k1 l1 r1 d1)) > distOf l2) then
        .node k2 (merge lt r2 (.node k1 l1 r1 d1)) l2 (distOf l2 + 1)
      else
        .node k2 l2 (merge lt r2 (.node k1 l1 r1 d1))
          (distOf (merge lt r2 (.node k1 l1 r1 d1)) + 1)
    else
      if isNil l1 ||
          decide (distOf (merge lt r1 (.node k2 l2 r2 d2)) > distOf l1) then
        .node k1 (merge lt r1 (.node k2 l2 r2 d2)) l1 (distOf l1 + 1)
      else
        .node k1 l1 (merge lt r1 (.node k2 l2 r2 d2))
          (distOf (merge lt r1 (.node k2 l2 r2 d2)) + 1)
termination_by h1 h2 => size h1 + size h2
decreasing_by
  all_goals simp [size]; omega

/-- `LeftistHeapEasyT::_singleton` applied to a fresh node. -/
def singleton (x : α) : Tree α := .node x .nil .nil 1

/-- `LeftistHeapEasyT::_push`. -/
def push (lt : α → α → Bool) (root : Tree α) (x : α) : Tree α :=
  merge lt root (singleton x)

/-- `LeftistHeapEasyT::_pop` plus the facade's `pop`: the merged children
replace the root, whose value is returned (and destroyed). -/
def pop (lt : α → α → Bool) : Tree α → Tree α × Option α
  | .nil => (.nil, none)
  | .node k l r _ => (merge lt l r, some k)

/-- `LeftistHeapEasy::front`: `none` models the `empty` exception. -/
def front : Tree α → Option α
  | .nil => none
  | .node k _ _ _ => some k

def empty : Tree α → Bool
  | .nil => true
  | _ => false

end LH

namespace LH

variable {α : Type}

/-- Multiset of stored values. -/
def toMul : Tree α → Multiset α
  | .nil => 0
  | .node k l r _ => {k} + toMul l + toMul r

/-- The heap invariant at one link: the root of `t` (if any) does not go
before `k` under the comparator. -/
def rootNotLt (lt : α → α → Bool) (k : α) : Tree α → Prop
  | .nil => True
  | .node k' _ _ _ => lt k' k = false

/-- Heap order: no child's key goes before its parent's key. -/
def HO (lt : α → α → Bool) : Tree α → Prop
  | .nil => True
  | .node k l r _ => rootNotLt lt k l ∧ rootNotLt lt k r ∧ HO lt l ∧ HO lt r

theorem merge_toMul (lt : α → α → Bool) (a b : Tree α) :
    toMul (merge lt a b) = toMul a + toMul b := by
  induction a, b using merge.induct lt with
  | case1 h2 => simp [merge, toMul]
  | case2 h1 hne =>
    cases h1 with
    | nil => exact absurd rfl hne
    | node k l r d => simp [merge, toMul]
  | case3 k1 l1 r1 d1 k2 l2 r2 d2 hlt hcond ih =>
    rw [merge, if_pos hlt, if_pos hcond]
    simp only [toMul, ih]
    abel
  | case4 k1 l1 r1 d1 k2 l2 r2 d2 hlt hcond ih =>
    rw [merge, if_pos hlt, if_neg hcond]
    simp only [toMul, ih]
    abel
  | case5 k1 l1 r1 d1 k2 l2 r2 d2 hlt hcond ih =>
    rw [merge, if_neg hlt, if_pos hcond]
    simp only [toMul, ih]
    abel
  | case6 k1 l1 r1 d1 k2 l2 r2 d2 hlt hcond ih =>
    rw [merge, if_neg hlt, if_neg hcond]
    simp only [toMul, ih]
    abel

theorem merge_size (lt : α → α → Bool) (a b : Tree α) :
    size (merge lt a b) = size a + size b := by
  induction a, b using merge.induct lt with
  | case1 h2 => simp [merge, size]
  | case2 h1 hne =>
    cases h1 with
    | nil => exact absurd rfl hne
    | node k l r d => simp [merge, size]
  | case3 k1 l1 r1 d1 k2 l2 r2 d2 hlt hcond ih =>
    rw [merge, if_pos hlt, if_pos hcond]
    simp only [size, ih]
    omega
  | case4 k1 l1 r1 d1 k2 l2 r2 d2 hlt hcond ih =>
    rw [merge, if_pos hlt, if_neg hcond]
    simp only [size, ih]
    omega
  | case5 k1 l1 r1 d1 k2 l2 r2 d2 hlt hcond ih =>
    rw [merge, if_neg hlt, if_pos hcond]
    simp only [size, ih]
    omega
  | case6 k1 l1 r1 d1 k2 l2 r2 d2 hlt hcond ih =>
    rw [merge, if_neg hlt, if_neg hcond]
    simp only [size, ih]
    omega

theorem rootNotLt_merge (lt : α → α → Bool) {k : α} {a b : Tree α}
    (ha : rootNotLt lt k a) (hb : rootNotLt lt k b) :
    rootNotLt lt k (merge lt a b) := by
  cases a with
  | nil => simpa [merge] using hb
  | node k1 l1 r1 d1 =>
    cases b with
    | nil => simpa [merge] using ha
    | node k2 l2 r2 d2 =>
      rw [merge]
      split
      · split <;> exact hb
      · split <;> exact ha

theorem merge_HO (lt : α → α → Bool) (hswo : IsSWO lt) {a b : Tree α}
    (ha : HO lt a) (hb : HO lt b) : HO lt (merge lt a b) := by
  induction a, b using merge.induct lt with
  | case1 h2 => simpa [merge]
  | case2 h1 hne =>
    cases h1 with
    | nil => exact absurd rfl hne
    | node k l r d => simpa [merge]
  | case3 k1 l1 r1 d1 k2 l2 r2 d2 hlt hcond ih =>
    obtain ⟨hl2, hr2, hol2, hor2⟩ := hb
    have hm : HO lt (merge lt r2 (.node k1 l1 r1 d1)) := ih hor2 ha
    have hroot : rootNotLt lt k2 (merge lt r2 (.node k1 l1 r1 d1)) :=
      rootNotLt_merge lt hr2 (hswo.asymm hlt)
    rw [merge, if_pos hlt, if_pos hcond]
    exact ⟨hroot, hl2, hm, hol2⟩
  | case4 k1 l1 r1 d1 k2 l2 r2 d2 hlt hcond ih =>
    obtain ⟨hl2, hr2, hol2, hor2⟩ := hb
    have hm : HO lt (merge lt r2 (.node k1 l1 r1 d1)) := ih hor2 ha
    have hroot : rootNotLt lt k2 (merge lt r2 (.node k1 l1 r1 d1)) :=
      rootNotLt_merge lt hr2 (hswo.asymm hlt)
    rw [merge, if_pos hlt, if_neg hcond]
    exact ⟨hl2, hroot, hol2, hm⟩
  | case5 k1 l1 r1 d1 k2 l2 r2 d2 hlt hcond ih =>
    obtain ⟨hl1, hr1, hol1, hor1⟩ := ha
    have hm : HO lt (merge lt r1 (.node k2 l2 r2 d2)) := ih hor1 hb
    have hroot : rootNotLt lt k1 (merge lt r1 (.node k2 l2 r2 d2)) :=
      rootNotLt_merge lt hr1 (by simpa using hlt)
    rw [merge, if_neg hlt, if_pos hcond]
    exact ⟨hroot, hl1, hm, hol1⟩
  | case6 k1 l1 r1 d1 k2 l2 r2 d2 hlt hcond ih =>
    obtain ⟨hl1, hr1, hol1, hor1⟩ := ha
    have hm : HO lt (merge lt r1 (.node k2 l2 r2 d2)) := ih hor1 hb
    have hroot : rootNotLt lt k1 (merge lt r1 (.node k2 l2 r2 d2)) :=
      rootNotLt_merge lt hr1 (by simpa using hlt)
    rw [merge, if_neg hlt, if_neg hcond]
    exact ⟨hl1, hroot, hol1, hm⟩

/-- Every value stored under a bound is not before the bound. -/
theorem HO_all_notlt (lt : α → α → Bool) (hswo : IsSWO lt) :
    ∀ t : Tree α, HO lt t → ∀ k, rootNotLt lt k t →
    ∀ x ∈ toMul t, lt x k = false := by
  intro t
  induction t with
  | nil => intro _ k _ x hx; simp [toMul] at hx
  | node k' l r d ihl ihr =>
    intro ht k hk x hx
    obtain ⟨hkl, hkr, hol, hor⟩ := ht
    have hk'k : lt k' k = false := hk
    simp only [toMul, Multiset.mem_add, Multiset.mem_singleton] at hx
    rcases hx with (hx | hx) | hx
    · subst hx; exact hk'k
    · have hxl : lt x k' = false := by
        apply ihl hol k' _ x hx
        cases l with
        | nil => trivial
        | node kl _ _ _ => exact hkl
      exact hswo.notlt_trans hk'k hxl
    · have hxr : lt x k' = false := by
        apply ihr hor k' _ x hx
        cases r with
        | nil => trivial
        | node kr _ _ _ => exact hkr
      exact hswo.notlt_trans hk'k hxr

/-- Reading `front()` and popping until empty: the list of values in pop
order. -/
def popAll (lt : α → α → Bool) : Tree α → List α
  | .nil => []
  | .node k l r _ => k :: popAll lt (merge lt l r)
termination_by t => size t
decreasing_by
  simp only [merge_size, size]
  omega

theorem popAll_toMul (lt : α → α → Bool) :
    ∀ t : Tree α, (popAll lt t : Multiset α) = toMul t := by
  intro t
  induction t using popAll.induct lt with
  | case1 => simp [popAll, toMul]
  | case2 k l r d ih =>
    rw [popAll]
    show ((k :: popAll lt (merge lt l r) : List α) : Multiset α) = _
    rw [← Multiset.cons_coe, ih, merge_toMul]
    simp only [toMul]
    rw [← Multiset.singleton_add]
    abel

theorem popAll_pairwise (lt : α → α → Bool) (hswo : IsSWO lt) :
    ∀ t : Tree α, HO lt t →
    List.Pairwise (fun a b => lt b a = false) (popAll lt t) := by
  intro t
  induction t using popAll.induct lt with
  | case1 => simp [popAll]
  | case2 k l r d ih =>
    intro ht
    obtain ⟨hkl, hkr, hol, hor⟩ := ht
    have hm : HO lt (merge lt l r) := merge_HO lt hswo hol hor
    rw [popAll]
    constructor
    · intro x hx
      have hx' : x ∈ toMul (merge lt l r) := by
        rw [← popAll_toMul lt]
        exact Multiset.mem_coe.mpr hx
      exact HO_all_notlt lt hswo _ hm k (rootNotLt_merge lt hkl hkr) x hx'
    · exact ih hm

end LH

namespace LH

variable {α : Type}

/-- The hedge size bound of `LeftistHeapEasyT::_push_list`:
`sizeof(void*) * CHAR_BIT` on a 64-bit platform. -/
def hedgeLimit : Nat := 64

/-- The inner `for` loop of `_push_list` Phase I: starting at `hidx`,
merge the accumulated node with every occupied slot (clearing it) until an
empty slot or `hsize` is reached. -/
def hedgeScan (lt : α → α → Bool) (arr : List (Option (Tree α)))
    (hidx hsize : Nat) (t : Tree α) :
    List (Option (Tree α)) × Nat × Tree α :=
  if hidx < hsize then
    match arr.getD hidx none with
    | some u => hedgeScan lt (arr.set hidx none) (hidx + 1) hsize (merge lt u t)
    | none => (arr, hidx, t)
  else (arr, hidx, t)
termination_by hsize - hidx

/-- One Phase-I step of `_push_list`: deposit a new singleton after the
binomial-style combining, growing the hedge when possible (the overflow
branch folds into the last slot). -/
def hedgeIns (lt : α → α → Bool) (arr : List (Option (Tree α)))
    (hsize : Nat) (x : α) : List (Option (Tree α)) × Nat :=
  match hedgeScan lt arr 0 hsize (singleton x) with
  | (arr, hidx, t) =>
    if hidx < hsize then (arr.set hidx (some t), hsize)
    else if hsize < hedgeLimit then (arr.set hsize (some t), hsize + 1)
    else (arr.set (hedgeLimit - 1) (some t), hsize)

/-- Phase II of `_push_list`: fold the occupied slots of the active hedge
region into one heap (the accumulator enters as the null pointer left by
Phase I). -/
def hedgeFold (lt : α → α → Bool) (arr : List (Option (Tree α)))
    (hsize : Nat) (t : Tree α) : Tree α :=
  (arr.take hsize).foldl
    (fun acc slot => match slot with | some u => merge lt u acc | none => acc) t

/-- `LeftistHeapEasyT::_push_list` on a node list already chained in
kernel order. -/
def push_list (lt : α → α → Bool) (root : Tree α) (xs : List α) : Tree α :=
  match xs.foldl (fun st x => hedgeIns lt st.1 st.2 x)
      (List.replicate hedgeLimit none, 0) with
  | (arr, hsize) => merge lt root (hedgeFold lt arr hsize .nil)

/-- The facade's range `push(first, last)`: it builds the kernel list by
prepending (`_cons(_create_node(*first), head)`), so the kernel sees the
input reversed. -/
def bulkPush (lt : α → α → Bool) (root : Tree α) (xs : List α) : Tree α :=
  push_list lt root xs.reverse

/-- Multiset stored in a hedge array. -/
def msum : List (Option (Tree α)) → Multiset α
  | [] => 0
  | none :: rest => msum rest
  | some t :: rest => toMul t + msum rest

/-- All occupied slots of a hedge are heap-ordered. -/
def slotsHO (lt : α → α → Bool) (arr : List (Option (Tree α))) : Prop :=
  ∀ t : Tree α, some t ∈ arr → HO lt t

def optMul : Option (Tree α) → Multiset α
  | none => 0
  | some t => toMul t

theorem msum_cons (o : Option (Tree α)) (rest : List (Option (Tree α))) :
    msum (o :: rest) = optMul o + msum rest := by
  cases o <;> simp [msum, optMul]

theorem msum_set (arr : List (Option (Tree α))) :
    ∀ i v, i < arr.length →
    msum (arr.set i v) + optMul (arr.getD i none) = msum arr + optMul v := by
  induction arr with
  | nil => intro i v h; simp at h
  | cons a rest ih =>
    intro i v h
    cases i with
    | zero =>
      simp only [List.set_cons_zero, List.getD_cons_zero, msum_cons]
      abel
    | succ j =>
      simp only [List.set_cons_succ, List.getD_cons_succ, msum_cons]
      rw [add_assoc, ih j v (by simpa using h), ← add_assoc]

theorem slotsHO_set_of (lt : α → α → Bool) {arr : List (Option (Tree α))}
    {v : Option (Tree α)} (ha : slotsHO lt arr)
    (hv : ∀ t : Tree α, v = some t → HO lt t) (i : Nat) :
    slotsHO lt (arr.set i v) := by
  intro t ht
  rcases List.mem_or_eq_of_mem_set ht with h | h
  · exact ha t h
  · exact hv t h.symm

theorem getD_mem {arr : List (Option (Tree α))} {i : Nat} {t : Tree α}
    (h : arr.getD i none = some t) : some t ∈ arr := by
  by_cases hi : i < arr.length
  · rw [List.getD_eq_getElem?_getD, List.getElem?_eq_getElem hi] at h
    have h2 : arr[i] = some t := h
    rw [← h2]
    exact List.getElem_mem hi
  · rw [List.getD_eq_getElem?_getD, List.getElem?_eq_none (by omega)] at h
    cases h

theorem getD_set_ne (arr : List (Option (Tree α))) {i j : Nat}
    (v : Option (Tree α)) (h : i ≠ j) :
    (arr.set i v).getD j none = arr.getD j none := by
  rw [List.getD_eq_getElem?_getD, List.getD_eq_getElem?_getD,
    List.getElem?_set_ne h]

theorem getD_set_self (arr : List (Option (Tree α))) {i : Nat}
    (v : Option (Tree α)) (h : i < arr.length) :
    (arr.set i v).getD i none = v := by
  rw [List.getD_eq_getElem?_getD, List.getElem?_set_self h]
  rfl

/-- Full specification of the Phase-I inner loop `hedgeScan`. -/
theorem hedgeScan_spec (lt : α → α → Bool) (hswo : IsSWO lt) :
    ∀ (arr : List (Option (Tree α))) (hidx hsize : Nat) (t : Tree α),
    slotsHO lt arr → HO lt t →
    (hedgeScan lt arr hidx hsize t).1.length = arr.length ∧
    hidx ≤ (hedgeScan lt arr hidx hsize t).2.1 ∧
    (hedgeScan lt arr hidx hsize t).2.1 ≤ max hidx hsize ∧
    slotsHO lt (hedgeScan lt arr hidx hsize t).1 ∧
    HO lt (hedgeScan lt arr hidx hsize t).2.2 ∧
    msum (hedgeScan lt arr hidx hsize t).1 +
      toMul (hedgeScan lt arr hidx hsize t).2.2 = msum arr + toMul t ∧
    (∀ j, j < hidx ∨ (hedgeScan lt arr hidx hsize t).2.1 ≤ j →
      (hedgeScan lt arr hidx hsize t).1.getD j none = arr.getD j none) ∧
    (∀ j, hidx ≤ j → j < (hedgeScan lt arr hidx hsize t).2.1 →
      (hedgeScan lt arr hidx hsize t).1.getD j none = none) ∧
    ((hedgeScan lt arr hidx hsize t).2.1 < hsize →
      (hedgeScan lt arr hidx hsize t).1.getD (hedgeScan lt arr hidx hsize t).2.1
        none = none) := by
  intro arr hidx hsize t
  induction arr, hidx, hsize, t using hedgeScan.induct lt with
  | case1 arr hidx hsize t hlt u hu ih =>
    intro hsl ht
    have hlen : hidx < arr.length := by
      by_contra hc
      rw [List.getD_eq_getElem?_getD, List.getElem?_eq_none (by omega)] at hu
      cases hu
    have hmem : HO lt u := hsl u (getD_mem hu)
    have hm : HO lt (merge lt u t) := merge_HO lt hswo hmem ht
    have hsl2 : slotsHO lt (arr.set hidx none) :=
      slotsHO_set_of lt hsl (by intro t' h; cases h) hidx
    obtain ⟨i1, i2, i3, i4, i5, i6, i7, i8, i9⟩ := ih hsl2 hm
    rw [hedgeScan, if_pos hlt, hu]
    dsimp only
    refine ⟨by rw [i1]; simp, by omega, by simp at i3 ⊢; omega, i4, i5, ?_, ?_, ?_,
      i9⟩
    · rw [i6, merge_toMul]
      have hms := msum_set arr hidx none hlen
      rw [hu] at hms
      simp only [optMul] at hms
      rw [add_zero] at hms
      rw [← add_assoc, hms]
    · intro j hj
      rcases hj with hj | hj
      · rw [i7 j (Or.inl (by omega)), getD_set_ne arr none (by omega)]
      · rw [i7 j (Or.inr hj), getD_set_ne arr none (by omega)]
    · intro j hj1 hj2
      by_cases hje : j = hidx
      · subst hje
        rw [i7 j (Or.inl (by omega)), getD_set_self arr none hlen]
      · exact i8 j (by omega) hj2
  | case2 arr hidx hsize t hlt hu =>
    intro hsl ht
    rw [hedgeScan, if_pos hlt, hu]
    dsimp only
    exact ⟨rfl, le_refl _, le_max_left _ _, hsl, ht, rfl,
      fun j _ => rfl, fun j h1 h2 => by omega, fun _ => hu⟩
  | case3 arr hidx hsize t hlt =>
    intro hsl ht
    rw [hedgeScan, if_neg hlt]
    dsimp only
    exact ⟨rfl, le_refl _, le_max_left _ _, hsl, ht, rfl,
      fun j _ => rfl, fun j h1 h2 => by omega, fun h => absurd h hlt⟩

end LH

namespace LH

variable {α : Type}

theorem singleton_HO (lt : α → α → Bool) (x : α) : HO lt (singleton x) :=
  ⟨trivial, trivial, trivial, trivial⟩

theorem singleton_toMul (x : α) : toMul (singleton x) = {x} := by
  simp [singleton, toMul]

/-- Specification of one Phase-I step of `_push_list`. -/
theorem hedgeIns_spec (lt : α → α → Bool) (hswo : IsSWO lt)
    {arr : List (Option (Tree α))} {hsize : Nat}
    (hlen : arr.length = hedgeLimit) (hhs : hsize ≤ hedgeLimit)
    (hsl : slotsHO lt arr)
    (hbey : ∀ j, hsize ≤ j → arr.getD j none = none) (x : α) :
    (hedgeIns lt arr hsize x).1.length = hedgeLimit ∧
    (hedgeIns lt arr hsize x).2 ≤ hedgeLimit ∧
    slotsHO lt (hedgeIns lt arr hsize x).1 ∧
    (∀ j, (hedgeIns lt arr hsize x).2 ≤ j →
      (hedgeIns lt arr hsize x).1.getD j none = none) ∧
    msum (hedgeIns lt arr hsize x).1 = msum arr + {x} := by
  obtain ⟨i1, i2, i3, i4, i5, i6, i7, i8, i9⟩ :=
    hedgeScan_spec lt hswo arr 0 hsize (singleton x) hsl (singleton_HO lt x)
  rw [hedgeIns]
  rcases hsc : hedgeScan lt arr 0 hsize (singleton x) with ⟨arr2, hidx, t⟩
  rw [hsc] at i1 i2 i3 i4 i5 i6 i7 i8 i9
  dsimp only at i1 i2 i3 i4 i5 i6 i7 i8 i9 ⊢
  rw [max_eq_right (Nat.zero_le hsize)] at i3
  rw [singleton_toMul] at i6
  by_cases h1 : hidx < hsize
  · rw [if_pos h1]
    dsimp only
    have hslot : arr2.getD hidx none = none := i9 h1
    have hlen2 : hidx < arr2.length := by rw [i1, hlen]; omega
    refine ⟨by simp [i1, hlen], hhs, ?_, ?_, ?_⟩
    · exact slotsHO_set_of lt i4 (by intro u hu; cases hu; exact i5) hidx
    · intro j hj
      rw [getD_set_ne arr2 (some t) (by omega), i7 j (Or.inr (by omega)),
        hbey j hj]
    · have := msum_set arr2 hidx (some t) hlen2
      rw [hslot] at this
      simp only [optMul] at this
      rw [add_zero] at this
      rw [this, i6]
  · rw [if_neg h1]
    have hx : hidx = hsize := by omega
    subst hx
    by_cases h2 : hidx < hedgeLimit
    · rw [if_pos h2]
      dsimp only
      have hlen2 : hidx < arr2.length := by rw [i1, hlen]; omega
      have hslot : arr2.getD hidx none = none := by
        rw [i7 hidx (Or.inr (le_refl _)), hbey hidx (le_refl _)]
      refine ⟨by simp [i1, hlen], by omega, ?_, ?_, ?_⟩
      · exact slotsHO_set_of lt i4 (by intro u hu; cases hu; exact i5) hidx
      · intro j hj
        rw [getD_set_ne arr2 (some t) (by omega), i7 j (Or.inr (by omega)),
          hbey j (by omega)]
      · have := msum_set arr2 hidx (some t) hlen2
        rw [hslot] at this
        simp only [optMul] at this
        rw [add_zero] at this
        rw [this, i6]
    · rw [if_neg h2]
      dsimp only
      have hx2 : hidx = hedgeLimit := by omega
      have hlen2 : hedgeLimit - 1 < arr2.length := by
        rw [i1, hlen]; simp [hedgeLimit]
      have h64 : hedgeLimit = 64 := rfl
      have hslot : arr2.getD (hedgeLimit - 1) none = none := by
        apply i8 (hedgeLimit - 1) (Nat.zero_le _)
        omega
      refine ⟨by simp [i1, hlen], by omega, ?_, ?_, ?_⟩
      · exact slotsHO_set_of lt i4 (by intro u hu; cases hu; exact i5) _
      · intro j hj
        rw [getD_set_ne arr2 (some t) (by omega),
          i7 j (Or.inr (by omega)), hbey j (by omega)]
      · have := msum_set arr2 (hedgeLimit - 1) (some t) hlen2
        rw [hslot] at this
        simp only [optMul] at this
        rw [add_zero] at this
        rw [this, i6]

/-- Heap order and content of the Phase-II fold. -/
theorem foldHeaps_spec (lt : α → α → Bool) (hswo : IsSWO lt) :
    ∀ (l : List (Option (Tree α))) (t : Tree α),
    (∀ u : Tree α, some u ∈ l → HO lt u) → HO lt t →
    HO lt (l.foldl
      (fun acc slot => match slot with
        | some u => merge lt u acc | none => acc) t) ∧
    toMul (l.foldl
      (fun acc slot => match slot with
        | some u => merge lt u acc | none => acc) t) = msum l + toMul t := by
  intro l
  induction l with
  | nil => intro t _ ht; simpa [msum]
  | cons a rest ih =>
    intro t hl ht
    cases a with
    | none =>
      simp only [List.foldl_cons]
      have := ih t (fun u hu => hl u (List.mem_cons_of_mem _ hu)) ht
      simpa [msum] using this
    | some u =>
      simp only [List.foldl_cons]
      have hu : HO lt u := hl u (List.mem_cons_self _ _)
      have := ih (merge lt u t)
        (fun v hv => hl v (List.mem_cons_of_mem _ hv))
        (merge_HO lt hswo hu ht)
      refine ⟨this.1, ?_⟩
      rw [this.2, merge_toMul, msum_cons]
      simp only [optMul]
      abel

theorem msum_all_none :
    ∀ (arr : List (Option (Tree α))),
    (∀ j, arr.getD j none = none) → msum arr = 0 := by
  intro arr
  induction arr with
  | nil => intro _; rfl
  | cons a rest ih =>
    intro h
    have h0 := h 0
    rw [List.getD_cons_zero] at h0
    subst h0
    rw [msum_cons]
    simp only [optMul, zero_add]
    exact ih (fun j => by have := h (j + 1); rwa [List.getD_cons_succ] at this)

theorem msum_take (arr : List (Option (Tree α))) :
    ∀ n, (∀ j, n ≤ j → arr.getD j none = none) →
    msum (arr.take n) = msum arr := by
  induction arr with
  | nil => intro n _; simp
  | cons a rest ih =>
    intro n h
    cases n with
    | zero =>
      simp only [List.take_zero]
      rw [msum_all_none (a :: rest) (fun j => h j (Nat.zero_le _))]
      rfl
    | succ m =>
      simp only [List.take_succ_cons, msum_cons]
      rw [ih m (fun j hj => by
        have := h (j + 1) (by omega)
        rwa [List.getD_cons_succ] at this)]

theorem replicate_getD (n j : Nat) :
    (List.replicate n (none : Option (Tree α))).getD j none = none := by
  induction n generalizing j with
  | zero => rfl
  | succ m ih =>
    cases j with
    | zero => rfl
    | succ i =>
      rw [List.replicate_succ, List.getD_cons_succ]
      exact ih i

theorem replicate_msum (n : Nat) :
    msum (List.replicate n (none : Option (Tree α))) = 0 := by
  exact msum_all_none _ (replicate_getD n)

/-- `_push_list` preserves heap order and adds exactly the pushed values. -/
theorem push_list_spec (lt : α → α → Bool) (hswo : IsSWO lt)
    (root : Tree α) (hroot : HO lt root) (xs : List α) :
    HO lt (push_list lt root xs) ∧
    toMul (push_list lt root xs) = toMul root + ↑xs := by
  have hinv : ∀ (ys : List α) (arr : List (Option (Tree α))) (hsize : Nat)
      (m : Multiset α),
      arr.length = hedgeLimit → hsize ≤ hedgeLimit → slotsHO lt arr →
      (∀ j, hsize ≤ j → arr.getD j none = none) → msum arr = m →
      (ys.foldl (fun st x => hedgeIns lt st.1 st.2 x) (arr, hsize)).1.length
        = hedgeLimit ∧
      (ys.foldl (fun st x => hedgeIns lt st.1 st.2 x) (arr, hsize)).2
        ≤ hedgeLimit ∧
      slotsHO lt (ys.foldl (fun st x => hedgeIns lt st.1 st.2 x)
        (arr, hsize)).1 ∧
      (∀ j, (ys.foldl (fun st x => hedgeIns lt st.1 st.2 x) (arr, hsize)).2
          ≤ j →
        (ys.foldl (fun st x => hedgeIns lt st.1 st.2 x)
          (arr, hsize)).1.getD j none = none) ∧
      msum (ys.foldl (fun st x => hedgeIns lt st.1 st.2 x) (arr, hsize)).1
        = m + ↑ys := by
    intro ys
    induction ys with
    | nil =>
      intro arr hsize m h1 h2 h3 h4 h5
      exact ⟨h1, h2, h3, h4, by simpa using h5⟩
    | cons x rest ih =>
      intro arr hsize m h1 h2 h3 h4 h5
      simp only [List.foldl_cons]
      obtain ⟨j1, j2, j3, j4, j5⟩ := hedgeIns_spec lt hswo h1 h2 h3 h4 x
      rcases hins : hedgeIns lt arr hsize x with ⟨arr2, hsize2⟩
      rw [hins] at j1 j2 j3 j4 j5
      dsimp only at j1 j2 j3 j4 j5
      have := ih arr2 hsize2 (m + {x}) j1 j2 j3 j4 (by rw [j5, h5])
      refine ⟨this.1, this.2.1, this.2.2.1, this.2.2.2.1, ?_⟩
      rw [this.2.2.2.2, ← Multiset.cons_coe, ← Multiset.singleton_add]
      abel
  rw [push_list]
  rcases hst : xs.foldl (fun st x => hedgeIns lt st.1 st.2 x)
      (List.replicate hedgeLimit none, 0) with ⟨arr, hsize⟩
  obtain ⟨k1, k2, k3, k4, k5⟩ := hinv xs (List.replicate hedgeLimit none)
    0 0 (by simp) (by omega)
    (by intro u hu; have := List.eq_of_mem_replicate hu; cases this)
    (fun j _ => replicate_getD _ j) (replicate_msum _)
  rw [hst] at k1 k2 k3 k4 k5
  dsimp only at k1 k2 k3 k4 k5 ⊢
  have hfold := foldHeaps_spec lt hswo (arr.take hsize) .nil
    (by
      intro u hu
      exact k3 u (List.mem_of_mem_take hu))
    trivial
  unfold hedgeFold
  refine ⟨merge_HO lt hswo hroot hfold.1, ?_⟩
  rw [merge_toMul, hfold.2, msum_take arr hsize k4, k5]
  simp only [toMul]
  abel

end LH

namespace LH

variable {α : Type}

theorem bulkPush_spec (lt : α → α → Bool) (hswo : IsSWO lt)
    (root : Tree α) (hroot : HO lt root) (xs : List α) :
    HO lt (bulkPush lt root xs) ∧
    toMul (bulkPush lt root xs) = toMul root + ↑xs := by
  have h := push_list_spec lt hswo root hroot xs.reverse
  rw [bulkPush]
  refine ⟨h.1, ?_⟩
  rw [h.2]
  congr 1
  exact Multiset.coe_reverse xs

/-- The states an LH2 heap can reach by the public construction
operations: empty, `push`, range `push` (bulk), and `merge` of two such
heaps (`rhs` is drained by `merge`, so its donated tree is exactly a built
tree). -/
inductive Built (lt : α → α → Bool) : Tree α → Prop
  | empty : Built lt .nil
  | pushOp {t : Tree α} (x : α) : Built lt t → Built lt (push lt t x)
  | bulkOp {t : Tree α} (xs : List α) : Built lt t →
      Built lt (bulkPush lt t xs)
  | mergeOp {a b : Tree α} : Built lt a → Built lt b →
      Built lt (merge lt a b)

theorem Built_HO {lt : α → α → Bool} (hswo : IsSWO lt) {t : Tree α}
    (h : Built lt t) : HO lt t := by
  induction h with
  | empty => trivial
  | pushOp x _ ih => exact merge_HO lt hswo ih (singleton_HO lt x)
  | bulkOp xs _ ih => exact (bulkPush_spec lt hswo _ ih xs).1
  | mergeOp _ _ iha ihb => exact merge_HO lt hswo iha ihb

end LH

-- ===========================================================================
-- PH2 / PH3: functional embedding of the pairing-heap kernel.
-- `PairingHeapEasyT` (src/src/phqueue2.cpp) and `PairingHeapT`
-- (src/unnamed/part_003) implement the same `down`/`next` tree operations;
-- they differ only in that PH3 additionally maintains the `prev`
-- back-links, which a value tree leaves implicit (they are recovered as
-- paths in the traversal embedding below).  The shared kernel here embeds
-- both sources' `_cons`, `_dunk`, `_merge`, `_build`, `_push`, `_pop`.
-- ===========================================================================

namespace PH

/-- `PairingNodeT` / PH3 `BaseNodeT` plus payload: `down` is the child
list head, `next` the right sibling. -/
inductive PTree (α : Type) where
  | nil : PTree α
  | node (key : α) (down : PTree α) (next : PTree α) : PTree α
deriving DecidableEq, Repr

variable {α : Type}

/-- `_cons(a,b)`: make `b` the successor of `a` (short-circuit on null). -/
def cons : PTree α → PTree α → PTree α
  | .nil, b => b
  | .node k d _, b => .node k d b

/-- `_dunk(a,b)`: make `b` the child-list head of `a` (short-circuit). -/
def dunk : PTree α → PTree α → PTree α
  | .nil, b => b
  | .node k _ n, b => .node k b n

/-- `if (retv) retv->_m_next = nullptr` (PH3 also clears `prev`). -/
def clearNext : PTree α → PTree α
  | .nil => .nil
  | .node k d _ => .node k d .nil

/-- `_merge`: the O(1) pairing-heap meld; the loser is prepended to the
winner's child list, and the returned root's sibling link is cleared. -/
def merge (lt : α → α → Bool) : PTree α → PTree α → PTree α
  | .nil, h2 => clearNext h2
  | h1, .nil => clearNext h1
  | .node k1 d1 n1, .node k2 d2 n2 =>
    if !(lt k2 k1) then
      clearNext (dunk (.node k1 d1 n1) (cons (.node k2 d2 n2) d1))
    else
      clearNext (dunk (.node k2 d2 n2) (cons (.node k1 d1 n1) d2))

/-- First loop of `_build`: consume sibling pairs left to right, pushing
each merged pair onto the stack `q` (threaded through the `next` slot). -/
def buildPairs (lt : α → α → Bool) : PTree α → PTree α → PTree α × PTree α
  | .nil, q => (.nil, q)
  | .node k d .nil, q => (.node k d .nil, q)
  | .node k1 dd1 (.node k2 dd2 rest), q =>
    buildPairs lt rest
      (cons (merge lt (.node k1 dd1 (.node k2 dd2 rest)) (.node k2 dd2 rest))
        q)

/-- Second loop of `_build`: drain the stack right to left, folding into
the accumulator. -/
def buildFold (lt : α → α → Bool) : PTree α → PTree α → PTree α
  | .nil, h => h
  | .node k d n, h => buildFold lt n (merge lt (.node k d n) h)

/-- `_build`: the pairing phase. -/
def build (lt : α → α → Bool) (h : PTree α) : PTree α :=
  match buildPairs lt h .nil with
  | (h, q) => buildFold lt q h

/-- `_push` of a freshly created node. -/
def push (lt : α → α → Bool) (root : PTree α) (x : α) : PTree α :=
  merge lt root (.node x .nil .nil)

/-- `_pop` plus the facade's destruction of the returned root. -/
def pop (lt : α → α → Bool) : PTree α → PTree α × Option α
  | .nil => (.nil, none)
  | .node k d _ => (build lt d, some k)

/-- `front()`: `none` models the `empty` exception. -/
def front : PTree α → Option α
  | .nil => none
  | .node k _ _ => some k

def toMul : PTree α → Multiset α
  | .nil => 0
  | .node k d n => {k} + toMul d + toMul n

/-- Multiset of the node itself and its child list, sibling part excluded
(what a node contributes once its `next` link is overwritten). -/
def selfMul : PTree α → Multiset α
  | .nil => 0
  | .node k d _ => {k} + toMul d

def nextNil : PTree α → Prop
  | .nil => True
  | .node _ _ n => n = .nil

/-- Heap order along a sibling list under an upper bound `k`: no member
of the list (nor of the child lists below) goes before `k`. -/
def spineHO (lt : α → α → Bool) (k : α) : PTree α → Prop
  | .nil => True
  | .node k' d n => lt k' k = false ∧ spineHO lt k' d ∧ spineHO lt k n

/-- Heap order of the head node, ignoring its sibling link. -/
def headHO (lt : α → α → Bool) (k : α) : PTree α → Prop
  | .nil => True
  | .node k' d _ => lt k' k = false ∧ spineHO lt k' d

/-- A well-formed heap root: no sibling, children bounded by the root. -/
def isHeap (lt : α → α → Bool) : PTree α → Prop
  | .nil => True
  | .node k d n => n = .nil ∧ spineHO lt k d

end PH

namespace PH

variable {α : Type}

theorem clearNext_toMul (t : PTree α) : toMul (clearNext t) = selfMul t := by
  cases t <;> simp [clearNext, toMul, selfMul]

theorem selfMul_eq_toMul {t : PTree α} (h : nextNil t) :
    selfMul t = toMul t := by
  cases t with
  | nil => rfl
  | node k d n =>
    have : n = .nil := h
    subst this
    simp [selfMul, toMul]

theorem merge_toMul_ph (lt : α → α → Bool) (a b : PTree α) :
    toMul (merge lt a b) = selfMul a + selfMul b := by
  cases a with
  | nil => cases b <;> simp [merge, clearNext_toMul, selfMul]
  | node k1 d1 n1 =>
    cases b with
    | nil => simp [merge, clearNext_toMul, selfMul]
    | node k2 d2 n2 =>
      rw [merge]
      split
      · simp [dunk, cons, clearNext, toMul, selfMul]
        exact add_comm _ _
      · simp [dunk, cons, clearNext, toMul, selfMul]
        rw [Multiset.cons_swap]

theorem merge_nextNil (lt : α → α → Bool) (a b : PTree α) :
    nextNil (merge lt a b) := by
  cases a with
  | nil => cases b <;> simp [merge, clearNext, nextNil]
  | node k1 d1 n1 =>
    cases b with
    | nil => simp [merge, clearNext, nextNil]
    | node k2 d2 n2 =>
      rw [merge]
      split <;> simp [dunk, cons, clearNext, nextNil]

theorem clearNext_headHO {lt : α → α → Bool} {K : α} {t : PTree α}
    (h : headHO lt K t) : headHO lt K (clearNext t) := by
  cases t <;> exact h

theorem merge_headHO (lt : α → α → Bool) (hswo : IsSWO lt) {K : α}
    {a b : PTree α} (ha : headHO lt K a) (hb : headHO lt K b) :
    headHO lt K (merge lt a b) := by
  cases a with
  | nil =>
    cases b with
    | nil => trivial
    | node k2 d2 n2 => exact clearNext_headHO hb
  | node k1 d1 n1 =>
    cases b with
    | nil => exact clearNext_headHO ha
    | node k2 d2 n2 =>
      rw [merge]
      split
      · rename_i hc
        rw [Bool.not_eq_true'] at hc
        simp only [dunk, cons, clearNext]
        exact ⟨ha.1, hc, hb.2, ha.2⟩
      · rename_i hc
        rw [Bool.not_eq_true', Bool.not_eq_false] at hc
        simp only [dunk, cons, clearNext]
        exact ⟨hb.1, hswo.asymm hc, ha.2, hb.2⟩

/-- Merging two well-formed heaps yields a well-formed heap. -/
theorem merge_isHeap (lt : α → α → Bool) (hswo : IsSWO lt) {a b : PTree α}
    (ha : isHeap lt a) (hb : isHeap lt b) : isHeap lt (merge lt a b) := by
  cases a with
  | nil =>
    cases b with
    | nil => trivial
    | node k2 d2 n2 => exact ⟨rfl, hb.2⟩
  | node k1 d1 n1 =>
    cases b with
    | nil => exact ⟨rfl, ha.2⟩
    | node k2 d2 n2 =>
      rw [merge]
      split
      · rename_i hc
        rw [Bool.not_eq_true'] at hc
        simp only [dunk, cons, clearNext]
        exact ⟨rfl, hc, hb.2, ha.2⟩
      · rename_i hc
        rw [Bool.not_eq_true', Bool.not_eq_false] at hc
        simp only [dunk, cons, clearNext]
        exact ⟨rfl, hswo.asymm hc, ha.2, hb.2⟩

/-- Everything below a bounded sibling list is bounded. -/
theorem spine_bound (lt : α → α → Bool) (hswo : IsSWO lt) :
    ∀ (t : PTree α) (k K : α), spineHO lt k t → lt k K = false →
    ∀ x ∈ toMul t, lt x K = false := by
  intro t
  induction t with
  | nil => intro k K _ _ x hx; simp [toMul] at hx
  | node k' d n ihd ihn =>
    intro k K hs hk x hx
    obtain ⟨h1, h2, h3⟩ := hs
    have hk' : lt k' K = false := hswo.notlt_trans hk h1
    simp only [toMul, Multiset.mem_add, Multiset.mem_singleton] at hx
    rcases hx with (hx | hx) | hx
    · subst hx; exact hk'
    · exact ihd k' K h2 hk' x hx
    · exact ihn k K h3 hk x hx

theorem cons_toMul {m : PTree α} (hm : nextNil m) (q : PTree α) :
    toMul (cons m q) = toMul m + toMul q := by
  cases m with
  | nil => simp [cons, toMul]
  | node k d n =>
    have : n = .nil := hm
    subst this
    simp [cons, toMul]

theorem cons_spineHO {lt : α → α → Bool} {K : α} {m q : PTree α}
    (hm : headHO lt K m) (hq : spineHO lt K q) :
    spineHO lt K (cons m q) := by
  cases m with
  | nil => exact hq
  | node k d n => exact ⟨hm.1, hm.2, hq⟩

theorem buildPairs_toMul (lt : α → α → Bool) :
    ∀ h q : PTree α,
    toMul (buildPairs lt h q).1 + toMul (buildPairs lt h q).2 =
      toMul h + toMul q := by
  intro h q
  induction h, q using buildPairs.induct lt with
  | case1 q => simp [buildPairs, toMul]
  | case2 k d q => simp [buildPairs]
  | case3 k1 dd1 k2 dd2 rest q ih =>
    rw [buildPairs]
    rw [ih]
    rw [cons_toMul (merge_nextNil lt _ _), merge_toMul_ph]
    simp only [toMul, selfMul]
    abel

theorem buildPairs_nextNil (lt : α → α → Bool) :
    ∀ h q : PTree α, nextNil (buildPairs lt h q).1 := by
  intro h q
  induction h, q using buildPairs.induct lt with
  | case1 q => trivial
  | case2 k d q => rfl
  | case3 k1 dd1 k2 dd2 rest q ih => rw [buildPairs]; exact ih

theorem buildPairs_HO (lt : α → α → Bool) (hswo : IsSWO lt) :
    ∀ h q : PTree α, ∀ K, spineHO lt K h → spineHO lt K q →
    headHO lt K (buildPairs lt h q).1 ∧ spineHO lt K (buildPairs lt h q).2 := by
  intro h q
  induction h, q using buildPairs.induct lt with
  | case1 q => intro K _ hq; exact ⟨trivial, hq⟩
  | case2 k d q => intro K hh hq; exact ⟨⟨hh.1, hh.2.1⟩, hq⟩
  | case3 k1 dd1 k2 dd2 rest q ih =>
    intro K hh hq
    obtain ⟨e1, e2, e3, e4, e5⟩ := hh
    rw [buildPairs]
    apply ih K e5
    apply cons_spineHO
    · exact merge_headHO lt hswo ⟨e1, e2⟩ ⟨e3, e4⟩
    · exact hq

theorem buildFold_toMul (lt : α → α → Bool) :
    ∀ q h : PTree α, nextNil h →
    toMul (buildFold lt q h) = toMul q + toMul h := by
  intro q
  induction q with
  | nil => intro h _; simp [buildFold, toMul]
  | node k d n ihd ihn =>
    intro h hh
    rw [buildFold, ihn _ (merge_nextNil lt _ _), merge_toMul_ph,
      selfMul_eq_toMul hh]
    simp only [toMul, selfMul]
    abel

theorem buildFold_nextNil (lt : α → α → Bool) :
    ∀ q h : PTree α, nextNil h → nextNil (buildFold lt q h) := by
  intro q
  induction q with
  | nil => intro h hh; exact hh
  | node k d n ihd ihn => intro h _; exact ihn _ (merge_nextNil lt _ _)

theorem buildFold_HO (lt : α → α → Bool) (hswo : IsSWO lt) :
    ∀ q h : PTree α, ∀ K, spineHO lt K q → headHO lt K h →
    headHO lt K (buildFold lt q h) := by
  intro q
  induction q with
  | nil => intro h K _ hh; exact hh
  | node k d n ihd ihn =>
    intro h K hq hh
    exact ihn _ K hq.2.2 (merge_headHO lt hswo ⟨hq.1, hq.2.1⟩ hh)

theorem build_toMul (lt : α → α → Bool) (h : PTree α) :
    toMul (build lt h) = toMul h := by
  rw [build]
  rcases hb : buildPairs lt h .nil with ⟨h2, q⟩
  have t1 := buildPairs_toMul lt h .nil
  have t2 := buildPairs_nextNil lt h .nil
  rw [hb] at t1 t2
  dsimp only at t1 t2 ⊢
  rw [buildFold_toMul lt q h2 t2]
  simp only [toMul] at t1 ⊢
  rw [add_zero] at t1
  rw [add_comm, t1]

theorem build_nextNil (lt : α → α → Bool) (h : PTree α) :
    nextNil (build lt h) := by
  rw [build]
  rcases hb : buildPairs lt h .nil with ⟨h2, q⟩
  have t2 := buildPairs_nextNil lt h .nil
  rw [hb] at t2
  exact buildFold_nextNil lt q h2 t2

theorem build_headHO (lt : α → α → Bool) (hswo : IsSWO lt) (h : PTree α)
    (K : α) (hh : spineHO lt K h) : headHO lt K (build lt h) := by
  rw [build]
  rcases hb : buildPairs lt h .nil with ⟨h2, q⟩
  have t3 := buildPairs_HO lt hswo h .nil K hh trivial
  rw [hb] at t3
  exact buildFold_HO lt hswo q h2 K t3.2 t3.1

/-- Reading `front()` and popping until empty. -/
def popAll (lt : α → α → Bool) : PTree α → List α
  | .nil => []
  | .node k d _ => k :: popAll lt (build lt d)
termination_by t => (toMul t).card
decreasing_by
  rw [build_toMul]
  simp only [toMul, Multiset.card_add, Multiset.card_singleton]
  omega

theorem popAll_toMul_ph (lt : α → α → Bool) :
    ∀ t : PTree α, nextNil t → (popAll lt t : Multiset α) = toMul t := by
  intro t
  induction t using popAll.induct lt with
  | case1 => intro _; simp [popAll, toMul]
  | case2 k d n ih =>
    intro hn
    have hn' : n = .nil := hn
    subst hn'
    rw [popAll, ← Multiset.cons_coe, ih (build_nextNil lt d), build_toMul]
    simp only [toMul]
    rw [← Multiset.singleton_add]
    abel

theorem popAll_pairwise_ph (lt : α → α → Bool) (hswo : IsSWO lt) :
    ∀ t : PTree α, isHeap lt t →
    List.Pairwise (fun a b => lt b a = false) (popAll lt t) := by
  intro t
  induction t using popAll.induct lt with
  | case1 => intro _; simp [popAll]
  | case2 k d n ih =>
    intro ht
    have hs : spineHO lt k d := ht.2
    have hheap : isHeap lt (build lt d) := by
      have hh := build_headHO lt hswo d k hs
      have hn := build_nextNil lt d
      cases hb : build lt d with
      | nil => trivial
      | node k' d' n' =>
        rw [hb] at hh hn
        exact ⟨hn, hh.2⟩
    rw [popAll]
    constructor
    · intro x hx
      have hx2 : x ∈ toMul (build lt d) := by
        rw [← popAll_toMul_ph lt _ (build_nextNil lt d)]
        exact Multiset.mem_coe.mpr hx
      rw [build_toMul] at hx2
      exact spine_bound lt hswo d k k hs (hswo.irrefl k) x hx2
    · exact ih hheap

/-- The states a PH2/PH3 heap can reach by the public construction
operations: empty, `push`, and `merge` (which drains the donor). -/
inductive Built (lt : α → α → Bool) : PTree α → Prop
  | empty : Built lt .nil
  | pushOp {t : PTree α} (x : α) : Built lt t → Built lt (push lt t x)
  | mergeOp {a b : PTree α} : Built lt a → Built lt b →
      Built lt (merge lt a b)

theorem Built_isHeap {lt : α → α → Bool} (hswo : IsSWO lt) {t : PTree α}
    (h : Built lt t) : isHeap lt t := by
  induction h with
  | empty => trivial
  | pushOp x _ ih => exact merge_isHeap lt hswo ih ⟨rfl, trivial⟩
  | mergeOp _ _ iha ihb => exact merge_isHeap lt hswo iha ihb

theorem Built_nextNil {lt : α → α → Bool} {t : PTree α}
    (h : Built lt t) : nextNil t := by
  cases h with
  | empty => trivial
  | pushOp x _ => exact merge_nextNil lt _ _
  | mergeOp _ _ => exact merge_nextNil lt _ _

end PH

-- ===========================================================================
-- MD3: functional embedding of the min-leaf-distance heap kernel
-- (src/src/mdqueue3.cpp).  A top-level `_merge(root, link, h1, h2)` call
-- interleaves the two heaps along the lighter side (Phase I), attaches
-- the survivor (Phase II) and recomputes `dist` bottom-up over exactly
-- the interleaved nodes (Phase III's forced `steps` cover the survivor
-- chain and the caller's anchor, whose own `dist` no operation reads).
-- The recursion below performs the same writes in the same order.
-- ===========================================================================

namespace MD

/-- `MinDistHeapT::BaseNodeT` plus payload; the parent pointer of the
source is the inverse of the `l`/`r` links and is left implicit (it is
recovered as a path in the traversal embedding below). -/
inductive Tree (α : Type) where
  | nil : Tree α
  | node (key : α) (l : Tree α) (r : Tree α) (dist : Int) : Tree α
deriving DecidableEq, Repr

variable {α : Type}

def distOf : Tree α → Int
  | .nil => 0
  | .node _ _ _ d => d

def isNil : Tree α → Bool
  | .nil => true
  | _ => false

def size : Tree α → Nat
  | .nil => 0
  | .node _ l r _ => size l + size r + 1

def toMul : Tree α → Multiset α
  | .nil => 0
  | .node k l r _ => {k} + toMul l + toMul r

/-- The Phase-I side choice: continue into the left slot iff the left
child is absent, or the right child exists and is heavier
(`!root->_m_lptr || (root->_m_rptr && root->_m_rptr->_m_dist >
root->_m_lptr->_m_dist)`). -/
def goLeft (l r : Tree α) : Bool :=
  isNil l || (!(isNil r) && decide (distOf r > distOf l))

/-- `MinDistHeapT::_merge` for a top-level call: the surviving root is the
one whose key is not greater (`_pred(*h2, *h1)` prefers `h1` on ties); the
loser is merged into the survivor's lighter slot; the survivor's `dist` is
refreshed to `min(dist l, dist r) + 1` on the way back up. -/
def merge (lt : α → α → Bool) : Tree α → Tree α → Tree α
  | .nil, h2 => h2
  | h1, .nil => h1
  | .node k1 l1 r1 d1, .node k2 l2 r2 d2 =>
    if lt k2 k1 then
      if goLeft l2 r2 then
        .node k2 (merge lt (.node k1 l1 r1 d1) l2) r2
          (min (distOf (merge lt (.node k1 l1 r1 d1) l2)) (distOf r2) + 1)
      else
        .node k2 l2 (merge lt (.node k1 l1 r1 d1) r2)
          (min (distOf l2) (distOf (merge lt (.node k1 l1 r1 d1) r2)) + 1)
    else
      if goLeft l1 r1 then
        .node k1 (merge lt l1 (.node k2 l2 r2 d2)) r1
          (min (distOf (merge lt l1 (.node k2 l2 r2 d2))) (distOf r1) + 1)
      else
        .node k1 l1 (merge lt r1 (.node k2 l2 r2 d2))
          (min (distOf l1) (distOf (merge lt r1 (.node k2 l2 r2 d2))) + 1)
termination_by h1 h2 => size h1 + size h2
decreasing_by
  all_goals simp [size]; omega

/-- `MinDistHeapT::_singleton`. -/
def singleton (x : α) : Tree α := .node x .nil .nil 1

/-- `MinDistHeapT::_push`. -/
def push (lt : α → α → Bool) (root : Tree α) (x : α) : Tree α :=
  merge lt root (singleton x)

/-- `MinDistHeapT::_pop` plus the facade's node destruction. -/
def pop (lt : α → α → Bool) : Tree α → Tree α × Option α
  | .nil => (.nil, none)
  | .node k l r _ => (merge lt l r, some k)

/-- `MinDistHeap::front`: `none` models the `empty` exception. -/
def front : Tree α → Option α
  | .nil => none
  | .node k _ _ _ => some k

/-- One pass of the do/while loop in `MinDistHeapT::_build`: pair
adjacent list members, prepending the melds to the result list; an odd
leftover is prepended last. -/
def buildRound (lt : α → α → Bool) : List (Tree α) → List (Tree α) →
    List (Tree α)
  | [], acc => acc
  | [h1], acc => h1 :: acc
  | h1 :: h2 :: rest, acc => buildRound lt rest (merge lt h1 h2 :: acc)

theorem buildRound_length (lt : α → α → Bool) :
    ∀ (l acc : List (Tree α)),
    (buildRound lt l acc).length = (l.length + 1) / 2 + acc.length := by
  intro l acc
  induction l, acc using buildRound.induct lt with
  | case1 acc => simp [buildRound]
  | case2 h1 acc => simp [buildRound]; omega
  | case3 h1 h2 rest acc ih =>
    rw [buildRound, ih]
    simp
    omega

/-- `MinDistHeapT::_build`: repeat rounds until at most one root is left. -/
def buildList (lt : α → α → Bool) : List (Tree α) → Tree α
  | [] => .nil
  | [t] => t
  | t1 :: t2 :: rest => buildList lt (buildRound lt (t1 :: t2 :: rest) [])
termination_by l => l.length
decreasing_by
  rw [buildRound_length]
  simp
  omega

/-- The facade's range `push(first, last)` plus `_push_list`: the facade
prepends, so the kernel sees the values reversed. -/
def bulkPush (lt : α → α → Bool) (root : Tree α) (xs : List α) : Tree α :=
  merge lt root (buildList lt (xs.reverse.map singleton))

end MD

namespace MD

variable {α : Type}

def rootNotLt (lt : α → α → Bool) (k : α) : Tree α → Prop
  | .nil => True
  | .node k' _ _ _ => lt k' k = false

/-- Heap order: no child's key goes before its parent's key. -/
def HO (lt : α → α → Bool) : Tree α → Prop
  | .nil => True
  | .node k l r _ => rootNotLt lt k l ∧ rootNotLt lt k r ∧ HO lt l ∧ HO lt r

theorem merge_toMul_md (lt : α → α → Bool) (a b : Tree α) :
    toMul (merge lt a b) = toMul a + toMul b := by
  induction a, b using merge.induct lt with
  | case1 h2 => simp [merge, toMul]
  | case2 h1 hne =>
    cases h1 with
    | nil => exact absurd rfl hne
    | node k l r d => simp [merge, toMul]
  | case3 k1 l1 r1 d1 k2 l2 r2 d2 hlt hcond ih =>
    rw [merge, if_pos hlt, if_pos hcond]
    simp only [toMul, ih]
    abel
  | case4 k1 l1 r1 d1 k2 l2 r2 d2 hlt hcond ih =>
    rw [merge, if_pos hlt, if_neg hcond]
    simp only [toMul, ih]
    abel
  | case5 k1 l1 r1 d1 k2 l2 r2 d2 hlt hcond ih =>
    rw [merge, if_neg hlt, if_pos hcond]
    simp only [toMul, ih]
    abel
  | case6 k1 l1 r1 d1 k2 l2 r2 d2 hlt hcond ih =>
    rw [merge, if_neg hlt, if_neg hcond]
    simp only [toMul, ih]
    abel

theorem rootNotLt_merge_md (lt : α → α → Bool) {k : α} {a b : Tree α}
    (ha : rootNotLt lt k a) (hb : rootNotLt lt k b) :
    rootNotLt lt k (merge lt a b) := by
  cases a with
  | nil => simpa [merge] using hb
  | node k1 l1 r1 d1 =>
    cases b with
    | nil => simpa [merge] using ha
    | node k2 l2 r2 d2 =>
      rw [merge]
      split
      · split <;> exact hb
      · split <;> exact ha

theorem merge_HO_md (lt : α → α → Bool) (hswo : IsSWO lt) {a b : Tree α}
    (ha : HO lt a) (hb : HO lt b) : HO lt (merge lt a b) := by
  induction a, b using merge.induct lt with
  | case1 h2 => simpa [merge]
  | case2 h1 hne =>
    cases h1 with
    | nil => exact absurd rfl hne
    | node k l r d => simpa [merge]
  | case3 k1 l1 r1 d1 k2 l2 r2 d2 hlt hcond ih =>
    obtain ⟨hl2, hr2, hol2, hor2⟩ := hb
    have hm : HO lt (merge lt (.node k1 l1 r1 d1) l2) := ih ha hol2
    have hroot : rootNotLt lt k2 (merge lt (.node k1 l1 r1 d1) l2) :=
      rootNotLt_merge_md lt (hswo.asymm hlt) hl2
    rw [merge, if_pos hlt, if_pos hcond]
    exact ⟨hroot, hr2, hm, hor2⟩
  | case4 k1 l1 r1 d1 k2 l2 r2 d2 hlt hcond ih =>
    obtain ⟨hl2, hr2, hol2, hor2⟩ := hb
    have hm : HO lt (merge lt (.node k1 l1 r1 d1) r2) := ih ha hor2
    have hroot : rootNotLt lt k2 (merge lt (.node k1 l1 r1 d1) r2) :=
      rootNotLt_merge_md lt (hswo.asymm hlt) hr2
    rw [merge, if_pos hlt, if_neg hcond]
    exact ⟨hl2, hroot, hol2, hm⟩
  | case5 k1 l1 r1 d1 k2 l2 r2 d2 hlt hcond ih =>
    obtain ⟨hl1, hr1, hol1, hor1⟩ := ha
    have hm : HO lt (merge lt l1 (.node k2 l2 r2 d2)) := ih hol1 hb
    have hroot : rootNotLt lt k1 (merge lt l1 (.node k2 l2 r2 d2)) :=
      rootNotLt_merge_md lt hl1 (by simpa using hlt)
    rw [merge, if_neg hlt, if_pos hcond]
    exact ⟨hroot, hr1, hm, hor1⟩
  | case6 k1 l1 r1 d1 k2 l2 r2 d2 hlt hcond ih =>
    obtain ⟨hl1, hr1, hol1, hor1⟩ := ha
    have hm : HO lt (merge lt r1 (.node k2 l2 r2 d2)) := ih hor1 hb
    have hroot : rootNotLt lt k1 (merge lt r1 (.node k2 l2 r2 d2)) :=
      rootNotLt_merge_md lt hr1 (by simpa using hlt)
    rw [merge, if_neg hlt, if_neg hcond]
    exact ⟨hl1, hroot, hol1, hm⟩

theorem HO_all_notlt_md (lt : α → α → Bool) (hswo : IsSWO lt) :
    ∀ t : Tree α, HO lt t → ∀ k, rootNotLt lt k t →
    ∀ x ∈ toMul t, lt x k = false := by
  intro t
  induction t with
  | nil => intro _ k _ x hx; simp [toMul] at hx
  | node k' l r d ihl ihr =>
    intro ht k hk x hx
    obtain ⟨hkl, hkr, hol, hor⟩ := ht
    have hk'k : lt k' k = false := hk
    simp only [toMul, Multiset.mem_add, Multiset.mem_singleton] at hx
    rcases hx with (hx | hx) | hx
    · subst hx; exact hk'k
    · have hxl : lt x k' = false := by
        apply ihl hol k' _ x hx
        cases l with
        | nil => trivial
        | node kl _ _ _ => exact hkl
      exact hswo.notlt_trans hk'k hxl
    · have hxr : lt x k' = false := by
        apply ihr hor k' _ x hx
        cases r with
        | nil => trivial
        | node kr _ _ _ => exact hkr
      exact hswo.notlt_trans hk'k hxr

theorem merge_size_md (lt : α → α → Bool) (a b : Tree α) :
    size (merge lt a b) = size a + size b := by
  induction a, b using merge.induct lt with
  | case1 h2 => simp [merge, size]
  | case2 h1 hne =>
    cases h1 with
    | nil => exact absurd rfl hne
    | node k l r d => simp [merge, size]
  | case3 k1 l1 r1 d1 k2 l2 r2 d2 hlt hcond ih =>
    rw [merge, if_pos hlt, if_pos hcond]
    simp only [size, ih]
    omega
  | case4 k1 l1 r1 d1 k2 l2 r2 d2 hlt hcond ih =>
    rw [merge, if_pos hlt, if_neg hcond]
    simp only [size, ih]
    omega
  | case5 k1 l1 r1 d1 k2 l2 r2 d2 hlt hcond ih =>
    rw [merge, if_neg hlt, if_pos hcond]
    simp only [size, ih]
    omega
  | case6 k1 l1 r1 d1 k2 l2 r2 d2 hlt hcond ih =>
    rw [merge, if_neg hlt, if_neg hcond]
    simp only [size, ih]
    omega

/-- Reading `front()` and popping until empty. -/
def popAll (lt : α → α → Bool) : Tree α → List α
  | .nil => []
  | .node k l r _ => k :: popAll lt (merge lt l r)
termination_by t => size t
decreasing_by
  simp only [merge_size_md, size]
  omega

theorem popAll_toMul_md (lt : α → α → Bool) :
    ∀ t : Tree α, (popAll lt t : Multiset α) = toMul t := by
  intro t
  induction t using popAll.induct lt with
  | case1 => simp [popAll, toMul]
  | case2 k l r d ih =>
    rw [popAll, ← Multiset.cons_coe, ih, merge_toMul_md]
    simp only [toMul]
    rw [← Multiset.singleton_add]
    abel

theorem popAll_pairwise_md (lt : α → α → Bool) (hswo : IsSWO lt) :
    ∀ t : Tree α, HO lt t →
    List.Pairwise (fun a b => lt b a = false) (popAll lt t) := by
  intro t
  induction t using popAll.induct lt with
  | case1 => simp [popAll]
  | case2 k l r d ih =>
    intro ht
    obtain ⟨hkl, hkr, hol, hor⟩ := ht
    have hm : HO lt (merge lt l r) := merge_HO_md lt hswo hol hor
    rw [popAll]
    constructor
    · intro x hx
      have hx2 : x ∈ toMul (merge lt l r) := by
        rw [← popAll_toMul_md lt]
        exact Multiset.mem_coe.mpr hx
      exact HO_all_notlt_md lt hswo _ hm k (rootNotLt_merge_md lt hkl hkr) x hx2
    · exact ih hm

def listMul : List (Tree α) → Multiset α
  | [] => 0
  | t :: rest => toMul t + listMul rest

theorem buildRound_listMul (lt : α → α → Bool) :
    ∀ l acc : List (Tree α),
    listMul (buildRound lt l acc) = listMul l + listMul acc := by
  intro l acc
  induction l, acc using buildRound.induct lt with
  | case1 acc => simp [buildRound, listMul]
  | case2 h1 acc => simp [buildRound, listMul]
  | case3 h1 h2 rest acc ih =>
    rw [buildRound, ih]
    simp only [listMul, merge_toMul_md]
    abel

theorem buildRound_HO (lt : α → α → Bool) (hswo : IsSWO lt) :
    ∀ l acc : List (Tree α), (∀ t ∈ l, HO lt t) → (∀ t ∈ acc, HO lt t) →
    ∀ t ∈ buildRound lt l acc, HO lt t := by
  intro l acc
  induction l, acc using buildRound.induct lt with
  | case1 acc => intro _ hacc; exact hacc
  | case2 h1 acc =>
    intro hl hacc
    intro t ht
    rw [buildRound] at ht
    rcases List.mem_cons.mp ht with h | h
    · subst h; exact hl _ (List.mem_cons_self _ _)
    · exact hacc _ h
  | case3 h1 h2 rest acc ih =>
    intro hl hacc
    rw [buildRound]
    apply ih
    · intro t ht; exact hl t (by simp [ht])
    · intro t ht
      rcases List.mem_cons.mp ht with h | h
      · subst h
        exact merge_HO_md lt hswo (hl _ (by simp)) (hl _ (by simp))
      · exact hacc _ h

theorem buildList_listMul (lt : α → α → Bool) :
    ∀ l : List (Tree α), toMul (buildList lt l) = listMul l := by
  intro l
  induction l using buildList.induct lt with
  | case1 => simp [buildList, toMul, listMul]
  | case2 t => simp [buildList, listMul, toMul]
  | case3 t1 t2 rest ih =>
    rw [buildList, ih, buildRound_listMul]
    simp [listMul]

theorem buildList_HO (lt : α → α → Bool) (hswo : IsSWO lt) :
    ∀ l : List (Tree α), (∀ t ∈ l, HO lt t) → HO lt (buildList lt l) := by
  intro l
  induction l using buildList.induct lt with
  | case1 => intro _; rw [buildList]; trivial
  | case2 t => intro h; rw [buildList]; exact h t (by simp)
  | case3 t1 t2 rest ih =>
    intro h
    rw [buildList]
    exact ih (buildRound_HO lt hswo _ [] h (by simp))

theorem singleton_HO_md (lt : α → α → Bool) (x : α) : HO lt (singleton x) :=
  ⟨trivial, trivial, trivial, trivial⟩

theorem bulkPush_spec_md (lt : α → α → Bool) (hswo : IsSWO lt)
    (root : Tree α) (hroot : HO lt root) (xs : List α) :
    HO lt (bulkPush lt root xs) ∧
    toMul (bulkPush lt root xs) = toMul root + ↑xs := by
  have hsingles : ∀ t ∈ xs.reverse.map singleton, HO lt t := by
    intro t ht
    obtain ⟨x, _, hx⟩ := List.mem_map.mp ht
    rw [← hx]
    exact singleton_HO_md lt x
  have hmul : ∀ ys : List α, listMul (ys.map singleton) = ↑ys := by
    intro ys
    induction ys with
    | nil => rfl
    | cons y rest ih =>
      simp only [List.map_cons, listMul, ih, toMul, singleton]
      rw [← Multiset.cons_coe, ← Multiset.singleton_add]
      abel
  rw [bulkPush]
  constructor
  · exact merge_HO_md lt hswo hroot (buildList_HO lt hswo _ hsingles)
  · rw [merge_toMul_md, buildList_listMul, hmul]
    congr 1
    exact Multiset.coe_reverse xs

/-- The states an MD3 heap can reach by the public construction
operations: empty, `push`, range `push` (bulk), and `merge`. -/
inductive Built (lt : α → α → Bool) : Tree α → Prop
  | empty : Built lt .nil
  | pushOp {t : Tree α} (x : α) : Built lt t → Built lt (push lt t x)
  | bulkOp {t : Tree α} (xs : List α) : Built lt t →
      Built lt (bulkPush lt t xs)
  | mergeOp {a b : Tree α} : Built lt a → Built lt b →
      Built lt (merge lt a b)

theorem Built_HO_md {lt : α → α → Bool} (hswo : IsSWO lt) {t : Tree α}
    (h : Built lt t) : HO lt t := by
  induction h with
  | empty => trivial
  | pushOp x _ ih => exact merge_HO_md lt hswo ih (singleton_HO_md lt x)
  | bulkOp xs _ ih => exact (bulkPush_spec_md lt hswo _ ih xs).1
  | mergeOp _ _ iha ihb => exact merge_HO_md lt hswo iha ihb

end MD

-- ===========================================================================
-- C3, C7, C8, C9
-- ===========================================================================

namespace LH

variable {α : Type}

/-- The facade's `merge(rhs)`: the donor is drained
(`std::swap(hold, rhs._m_root)`) and melded into the receiver. -/
def facadeMerge (lt : α → α → Bool) (a b : Tree α) : Tree α × Tree α :=
  (merge lt a b, .nil)

end LH

namespace MD

variable {α : Type}

/-- The facade's `merge(rhs)`: `rhs._yield()` cuts the donor's whole tree
from its sentinel and the result is melded under the receiver's
sentinel. -/
def facadeMerge (lt : α → α → Bool) (a b : Tree α) : Tree α × Tree α :=
  (merge lt a b, .nil)

end MD

namespace PH

variable {α : Type}

/-- The facade's `merge(rhs)` of PH2 (`swap` + `_merge`) and PH3
(`_dunk(&_m_root, _merge(_yield(), rhs._yield()))`). -/
def facadeMerge (lt : α → α → Bool) (a b : PTree α) : PTree α × PTree α :=
  (merge lt a b, .nil)

theorem front_min_ph (lt : α → α → Bool) (hswo : IsSWO lt) (t : PTree α)
    (ht : isHeap lt t) :
    ∀ v, front t = some v → ∀ x ∈ toMul t, lt x v = false := by
  cases t with
  | nil => intro v hv; cases hv
  | node k d n =>
    intro v hv x hx
    rw [front, Option.some.injEq] at hv
    rw [← hv]
    have hn : n = .nil := ht.1
    subst hn
    simp only [toMul, Multiset.mem_add, Multiset.mem_singleton] at hx
    rcases hx with (hx | hx) | hx
    · rw [hx]; exact hswo.irrefl k
    · exact spine_bound lt hswo d k k ht.2 (hswo.irrefl k) x hx
    · simp [toMul] at hx

end PH

namespace LH

variable {α : Type}

theorem front_min (lt : α → α → Bool) (hswo : IsSWO lt) (t : Tree α)
    (ht : HO lt t) :
    ∀ v, front t = some v → ∀ x ∈ toMul t, lt x v = false := by
  cases t with
  | nil => intro v hv; cases hv
  | node k l r d =>
    intro v hv x hx
    rw [front, Option.some.injEq] at hv
    rw [← hv]
    exact HO_all_notlt lt hswo _ ht k (hswo.irrefl k) x hx

end LH

namespace MD

variable {α : Type}

theorem front_min_md (lt : α → α → Bool) (hswo : IsSWO lt) (t : Tree α)
    (ht : HO lt t) :
    ∀ v, front t = some v → ∀ x ∈ toMul t, lt x v = false := by
  cases t with
  | nil => intro v hv; cases hv
  | node k l r d =>
    intro v hv x hx
    rw [front, Option.some.injEq] at hv
    rw [← hv]
    exact HO_all_notlt_md lt hswo _ ht k (hswo.irrefl k) x hx

end MD

/-- C3: for every variant (LH2, MD3, and the shared PH2/PH3 pairing
kernel) and every heap built by any sequence of push / bulk-push / merge
operations under a strict weak order comparator, reading `front()` and
popping until empty yields exactly the stored multiset, in an order that
is monotonically non-decreasing under the comparator (no later element is
before an earlier one). -/
theorem c3_pop_monotone {α : Type} (lt : α → α → Bool) (hswo : IsSWO lt) :
    (∀ t : LH.Tree α, LH.Built lt t →
      (LH.popAll lt t : Multiset α) = LH.toMul t ∧
      List.Pairwise (fun a b => lt b a = false) (LH.popAll lt t)) ∧
    (∀ t : MD.Tree α, MD.Built lt t →
      (MD.popAll lt t : Multiset α) = MD.toMul t ∧
      List.Pairwise (fun a b => lt b a = false) (MD.popAll lt t)) ∧
    (∀ t : PH.PTree α, PH.Built lt t →
      (PH.popAll lt t : Multiset α) = PH.toMul t ∧
      List.Pairwise (fun a b => lt b a = false) (PH.popAll lt t)) :=
  ⟨fun t ht => ⟨LH.popAll_toMul lt t,
      LH.popAll_pairwise lt hswo t (LH.Built_HO hswo ht)⟩,
   fun t ht => ⟨MD.popAll_toMul_md lt t,
      MD.popAll_pairwise_md lt hswo t (MD.Built_HO_md hswo ht)⟩,
   fun t ht => ⟨PH.popAll_toMul_ph lt t (PH.Built_nextNil ht),
      PH.popAll_pairwise_ph lt hswo t (PH.Built_isHeap hswo ht)⟩⟩

/-- Witness for C3 at concrete heaps over `Nat`. -/
theorem c3_pop_monotone_witness :
    ((LH.popAll natLT (LH.push natLT (LH.bulkPush natLT .nil [5, 1, 3]) 2) :
        Multiset Nat) =
      LH.toMul (LH.push natLT (LH.bulkPush natLT .nil [5, 1, 3]) 2) ∧
     List.Pairwise (fun a b => natLT b a = false)
      (LH.popAll natLT (LH.push natLT (LH.bulkPush natLT .nil [5, 1, 3]) 2))) ∧
    ((MD.popAll natLT (MD.push natLT (MD.bulkPush natLT .nil [5, 1, 3]) 2) :
        Multiset Nat) =
      MD.toMul (MD.push natLT (MD.bulkPush natLT .nil [5, 1, 3]) 2) ∧
     List.Pairwise (fun a b => natLT b a = false)
      (MD.popAll natLT (MD.push natLT (MD.bulkPush natLT .nil [5, 1, 3]) 2))) ∧
    ((PH.popAll natLT (PH.push natLT (PH.push natLT (PH.push natLT .nil 5) 1)
        3) : Multiset Nat) =
      PH.toMul (PH.push natLT (PH.push natLT (PH.push natLT .nil 5) 1) 3) ∧
     List.Pairwise (fun a b => natLT b a = false)
      (PH.popAll natLT
        (PH.push natLT (PH.push natLT (PH.push natLT .nil 5) 1) 3))) :=
  ⟨(c3_pop_monotone natLT natBlt_swo).1 _
      (LH.Built.pushOp 2 (LH.Built.bulkOp [5, 1, 3] LH.Built.empty)),
   (c3_pop_monotone natLT natBlt_swo).2.1 _
      (MD.Built.pushOp 2 (MD.Built.bulkOp [5, 1, 3] MD.Built.empty)),
   (c3_pop_monotone natLT natBlt_swo).2.2 _
      (PH.Built.pushOp 3 (PH.Built.pushOp 1
        (PH.Built.pushOp 5 PH.Built.empty)))⟩

/-- C7: for every variant, after `a.merge(b)` the donor is empty and the
receiver holds exactly the union of the two multisets.  The PH conjunct
assumes the two operands are root nodes without a dangling sibling link,
which holds for every actual heap root. -/
theorem c7_merge_union {α : Type} (lt : α → α → Bool) :
    (∀ a b : LH.Tree α,
      (LH.facadeMerge lt a b).2 = .nil ∧
      LH.toMul (LH.facadeMerge lt a b).1 = LH.toMul a + LH.toMul b) ∧
    (∀ a b : MD.Tree α,
      (MD.facadeMerge lt a b).2 = .nil ∧
      MD.toMul (MD.facadeMerge lt a b).1 = MD.toMul a + MD.toMul b) ∧
    (∀ a b : PH.PTree α, PH.nextNil a → PH.nextNil b →
      (PH.facadeMerge lt a b).2 = .nil ∧
      PH.toMul (PH.facadeMerge lt a b).1 = PH.toMul a + PH.toMul b) :=
  ⟨fun a b => ⟨rfl, LH.merge_toMul lt a b⟩,
   fun a b => ⟨rfl, MD.merge_toMul_md lt a b⟩,
   fun a b ha hb => ⟨rfl, by
      rw [PH.facadeMerge, PH.merge_toMul_ph, PH.selfMul_eq_toMul ha,
        PH.selfMul_eq_toMul hb]⟩⟩

/-- Witness for C7 at concrete PH heaps over `Nat`. -/
theorem c7_merge_union_witness :
    (PH.facadeMerge natLT (PH.push natLT (PH.push natLT .nil 1) 3)
      (PH.push natLT .nil 2)).2 = .nil ∧
    PH.toMul (PH.facadeMerge natLT (PH.push natLT (PH.push natLT .nil 1) 3)
      (PH.push natLT .nil 2)).1 =
      PH.toMul (PH.push natLT (PH.push natLT .nil 1) 3) +
      PH.toMul (PH.push natLT .nil 2) :=
  (c7_merge_union natLT).2.2 _ _
    (PH.merge_nextNil natLT _ _) (PH.merge_nextNil natLT _ _)

/-- C8: for every variant, `front()` raises the empty exception exactly on
a heap without user nodes; on a non-empty heap it returns the root value,
and no stored value is strictly less than it under the comparator.  The
heaps are quantified over the states built by push / bulk-push / merge
(`Built`); `front` itself is a pure observer, so the heap is unchanged by
construction. -/
theorem c8_front_spec {α : Type} (lt : α → α → Bool) (hswo : IsSWO lt) :
    (∀ t : LH.Tree α, LH.Built lt t →
      (LH.front t = none ↔ t = .nil) ∧
      (∀ v, LH.front t = some v →
        ∀ x ∈ LH.toMul t, lt x v = false)) ∧
    (∀ t : MD.Tree α, MD.Built lt t →
      (MD.front t = none ↔ t = .nil) ∧
      (∀ v, MD.front t = some v →
        ∀ x ∈ MD.toMul t, lt x v = false)) ∧
    (∀ t : PH.PTree α, PH.Built lt t →
      (PH.front t = none ↔ t = .nil) ∧
      (∀ v, PH.front t = some v →
        ∀ x ∈ PH.toMul t, lt x v = false)) := by
  refine ⟨fun t ht => ⟨?_, LH.front_min lt hswo t (LH.Built_HO hswo ht)⟩,
    fun t ht => ⟨?_, MD.front_min_md lt hswo t (MD.Built_HO_md hswo ht)⟩,
    fun t ht => ⟨?_, PH.front_min_ph lt hswo t (PH.Built_isHeap hswo ht)⟩⟩
  · cases t <;> simp [LH.front]
  · cases t <;> simp [MD.front]
  · cases t <;> simp [PH.front]

/-- Witness for C8 at a concrete MD3 heap over `Nat`. -/
theorem c8_front_spec_witness :
    (MD.front (MD.push natLT (MD.push natLT (MD.push natLT .nil 5) 1) 3)
        = none ↔
      MD.push natLT (MD.push natLT (MD.push natLT .nil 5) 1) 3 = .nil) ∧
    (∀ v, MD.front (MD.push natLT (MD.push natLT (MD.push natLT .nil 5) 1) 3)
        = some v →
      ∀ x ∈ MD.toMul (MD.push natLT (MD.push natLT (MD.push natLT .nil 5) 1)
          3), natLT x v = false) :=
  (c8_front_spec natLT natBlt_swo).2.1 _
    (MD.Built.pushOp 3 (MD.Built.pushOp 1 (MD.Built.pushOp 5
      MD.Built.empty)))

/-- C9: for every variant, `pop()` on an empty heap is a no-op: the heap
is unchanged and no node is destroyed (the kernel `_pop` returns the null
pointer, so the facade's `_destroy_node` does nothing), and no error is
raised. -/
theorem c9_pop_empty_noop {α : Type} (lt : α → α → Bool) :
    LH.pop lt .nil = (.nil, none) ∧
    MD.pop lt .nil = (.nil, none) ∧
    PH.pop lt .nil = (.nil, none) :=
  ⟨rfl, rfl, rfl⟩

-- ===========================================================================
-- Handle-based traversal (C4, C5): shared path machinery.
-- A position ("iterator") is the list of link directions from the user
-- root; the sentinel (end()) is `none`.  The parent pointers of the C++
-- nodes are the inverses of these links and are recovered by path
-- decomposition, so the top-down functions below compute exactly what the
-- bottom-up pointer walks of _iter_succ / _iter_pred compute.
-- ===========================================================================

/-- A link direction: `L` is `_m_lptr` / `_m_down`, `R` is `_m_rptr` /
`_m_next`. -/
inductive Dir where
  | L : Dir
  | R : Dir
deriving DecidableEq, Repr

abbrev DPath := List Dir

/-- In a chain, an element is related to its immediate follower, wherever
the pair sits. -/
theorem chain_extract {β : Type} {R : β → β → Prop} :
    ∀ (A : List β) {p u : β} {U : List β},
    List.Chain' R (A ++ p :: u :: U) → R p u := by
  intro A
  induction A with
  | nil => intro p u U h; exact (List.chain'_cons.mp h).1
  | cons a A' ih => intro p u U h; exact ih h.tail

/-- Splitting a duplicate-free list at a given element is unambiguous. -/
theorem nodup_split {β : Type} :
    ∀ (A₁ : List β) {l A₂ U₁ U₂ : List β} {p : β}, l.Nodup →
    l = A₁ ++ p :: U₁ → l = A₂ ++ p :: U₂ → A₁ = A₂ ∧ U₁ = U₂ := by
  intro A₁
  induction A₁ with
  | nil =>
    intro l A₂ U₁ U₂ p hn h1 h2
    subst h1
    cases A₂ with
    | nil =>
      simp only [List.nil_append] at h2
      exact ⟨rfl, by injection h2⟩
    | cons a A₂' =>
      simp only [List.cons_append, List.nil_append] at h2
      injection h2 with hpa htl
      exfalso
      simp only [List.nil_append, List.nodup_cons] at hn
      exact hn.1 (htl ▸ List.mem_append_right _ (List.mem_cons_self _ _))
  | cons a A₁' ih =>
    intro l A₂ U₁ U₂ p hn h1 h2
    subst h1
    cases A₂ with
    | nil =>
      simp only [List.cons_append, List.nil_append] at h2
      injection h2 with hpa htl
      exfalso
      rw [List.cons_append, List.nodup_cons, hpa] at hn
      exact hn.1 (List.mem_append_right _ (List.mem_cons_self _ _))
    | cons b A₂' =>
      simp only [List.cons_append] at h2
      injection h2 with hab htl
      rw [List.cons_append, List.nodup_cons] at hn
      obtain ⟨hA, hU⟩ := ih hn.2 rfl htl
      exact ⟨by rw [hab, hA], hU⟩

-- ===========================================================================
-- Generic link-shape view of the traversal.  `_abseil`, `_iter_succ` and
-- `_iter_pred` are textually identical in mdqueue3.cpp and part_003 up to
-- the field names (`_m_lptr`/`_m_rptr` vs `_m_down`/`_m_next`), and they
-- read only the two links; so the traversal functions are defined once on
-- the common projection and each variant's tree is mapped onto it.
-- ===========================================================================

namespace BT

/-- The link shape (plus payload) that both node types share; `l` is
`_m_lptr` / `_m_down`, `r` is `_m_rptr` / `_m_next`. -/
inductive T (α : Type) where
  | nil : T α
  | node (key : α) (l : T α) (r : T α) : T α
deriving DecidableEq, Repr

variable {α : Type}

def isNil : T α → Bool
  | .nil => true
  | _ => false

def size : T α → Nat
  | .nil => 0
  | .node _ l r => size l + size r + 1

def toMul : T α → Multiset α
  | .nil => 0
  | .node k l r => {k} + toMul l + toMul r

/-- Follow a direction path from a node down the links. -/
def subtreeAt : T α → DPath → Option (T α)
  | t, [] => some t
  | .nil, _ :: _ => none
  | .node _ l _, .L :: q => subtreeAt l q
  | .node _ _ r, .R :: q => subtreeAt r q

/-- The payload stored at a position. -/
def keyAt : T α → DPath → Option α
  | .nil, _ => none
  | .node k _ _, [] => some k
  | .node _ l _, .L :: q => keyAt l q
  | .node _ _ r, .R :: q => keyAt r q

/-- Replace the subtree at a position (an out-of-tree path is a no-op on
the shape level, which never happens for valid positions). -/
def substAt : T α → DPath → T α → T α
  | _, [], s => s
  | .nil, _ :: _, _ => .nil
  | .node k l r, .L :: q, s => .node k (substAt l q s) r
  | .node k l r, .R :: q, s => .node k l (substAt r q s)

/-- The loop of `_abseil` after the first step: from the current node
continue into `r` if present, else into `l`, until both links are null. -/
def spineP : T α → DPath
  | .nil => []
  | .node _ l r =>
    if isNil r then (if isNil l then [] else .L :: spineP l) else .R :: spineP r

/-- `_iter_succ`, written top-down over the path (the `_m_pptr` chain of
the source is the reversed path): a left child's successor is its parent;
a right child's successor is `_abseil(parent)`; the root's successor is
the sentinel (`none` = `end()`). -/
def succP : T α → DPath → Option DPath
  | _, [] => none
  | .nil, _ :: _ => none
  | .node _ l _, .L :: q =>
    match succP l q with
    | some u => some (.L :: u)
    | none => some []
  | .node _ l r, .R :: q =>
    match succP r q with
    | some u => some (.R :: u)
    | none => some (if isNil l then [] else .L :: spineP l)

/-- `_iter_head()` = `_abseil(&_m_root)`: the sentinel's `l` link holds
the user root, so begin is the spine walk from the root, or `end()` when
the heap is empty. -/
def beginP (t : T α) : Option DPath :=
  if isNil t then none else some (spineP t)

/-- The in-tree part of `_iter_pred`: descend into `l`, else `r`; from a
leaf, ascend while the node came through `r` or the parent has no `r`
(`node == prev->_m_rptr || !prev->_m_rptr`), then step into that `r`
sibling; `none` means the walk escaped to the sentinel. -/
def predStepP : T α → DPath → Option DPath
  | .nil, _ => none
  | .node _ l r, [] =>
    if !(isNil l) then some [.L]
    else if !(isNil r) then some [.R]
    else none
  | .node _ l r, .L :: q =>
    match predStepP l q with
    | some u => some (.L :: u)
    | none => if isNil r then none else some [.R]
  | .node _ _ r, .R :: q =>
    match predStepP r q with
    | some u => some (.R :: u)
    | none => none

/-- `_iter_pred` at heap level: from the sentinel (`--end()`) step to the
user root if there is one; a `none` result is the out-of-range throw. -/
def predP (t : T α) : Option DPath → Option DPath
  | none => if isNil t then none else some []
  | some p => predStepP t p

/-- Right-to-left postorder positions: the forward iteration order. -/
def postPaths : T α → List DPath
  | .nil => []
  | .node _ l r =>
    (postPaths r).map (fun q => Dir.R :: q)
      ++ (postPaths l).map (fun q => Dir.L :: q) ++ [[]]

/-- Left-to-right preorder positions: the backward iteration order. -/
def prePaths : T α → List DPath
  | .nil => []
  | .node _ l r =>
    [] :: ((prePaths l).map (fun q => Dir.L :: q)
      ++ (prePaths r).map (fun q => Dir.R :: q))

/-- Keys in right-to-left postorder. -/
def postKeys : T α → List α
  | .nil => []
  | .node k l r => postKeys r ++ postKeys l ++ [k]

/-- Keys in left-to-right preorder. -/
def preKeys : T α → List α
  | .nil => []
  | .node k l r => k :: (preKeys l ++ preKeys r)

/-- Iterated `--it` starting from a position, collecting the positions
reached until the out-of-range throw. -/
def predRun (t : T α) : Nat → Option DPath → List DPath
  | 0, _ => []
  | n + 1, pos =>
    match predP t pos with
    | none => []
    | some p => p :: predRun t n (some p)

end BT

/-- Splitting a mapped list at an element lifts to a split of the
original list. -/
theorem map_split {β γ : Type} (f : β → γ) :
    ∀ (L : List β) {A U : List γ} {p : γ}, L.map f = A ++ p :: U →
    ∃ A₀ q U₀, L = A₀ ++ q :: U₀ ∧ A = A₀.map f ∧ p = f q ∧ U = U₀.map f := by
  intro L
  induction L with
  | nil => intro A U p h; simp at h
  | cons x L' ih =>
    intro A U p h
    cases A with
    | nil =>
      simp only [List.map_cons, List.nil_append] at h
      injection h with h1 h2
      exact ⟨[], x, L', by simp, by simp, h1.symm, h2.symm⟩
    | cons a A' =>
      simp only [List.map_cons, List.cons_append] at h
      injection h with h1 h2
      obtain ⟨A₀, q, U₀, e1, e2, e3, e4⟩ := ih h2
      exact ⟨x :: A₀, q, U₀, by rw [e1]; rfl, by simp [e2, h1.symm], e3, e4⟩

namespace BT

variable {α : Type}

theorem isNil_true_iff : ∀ t : T α, isNil t = true ↔ t = .nil := by
  intro t
  cases t <;> simp [isNil]

theorem postPaths_length : ∀ t : T α, (postPaths t).length = size t := by
  intro t
  induction t with
  | nil => simp [postPaths, size]
  | node k l r ihl ihr => simp [postPaths, size, ihl, ihr]; omega

theorem prePaths_length : ∀ t : T α, (prePaths t).length = size t := by
  intro t
  induction t with
  | nil => simp [prePaths, size]
  | node k l r ihl ihr => simp [prePaths, size, ihl, ihr, Nat.add_comm]

/-- The first forward position is the abseiling spine walk. -/
theorem post_head : ∀ t : T α, isNil t = false →
    (postPaths t).head? = some (spineP t) := by
  intro t
  induction t with
  | nil => intro h; simp [isNil] at h
  | node k l r ihl ihr =>
    intro _
    rw [postPaths, spineP]
    by_cases hr : isNil r = true
    · rw [if_pos hr, (isNil_true_iff r).mp hr]
      by_cases hl : isNil l = true
      · rw [if_pos hl, (isNil_true_iff l).mp hl]
        simp [postPaths]
      · rw [if_neg hl]
        have hh := ihl (by simpa using hl)
        rcases hx : postPaths l with _ | ⟨x, xs⟩
        · rw [hx] at hh; simp at hh
        · rw [hx] at hh
          simp at hh
          simp [postPaths, hx, hh]
    · rw [if_neg hr]
      have hh := ihr (by simpa using hr)
      rcases hx : postPaths r with _ | ⟨x, xs⟩
      · rw [hx] at hh; simp at hh
      · rw [hx] at hh
        simp at hh
        simp [hx, hh]

theorem pre_head : ∀ t : T α, isNil t = false →
    (prePaths t).head? = some [] := by
  intro t ht
  cases t with
  | nil => simp [isNil] at ht
  | node k l r => simp [prePaths]

/-- The last forward position is the user root. -/
theorem post_getLast : ∀ t : T α, isNil t = false →
    (postPaths t).getLast? = some [] := by
  intro t ht
  cases t with
  | nil => simp [isNil] at ht
  | node k l r =>
    rw [postPaths]
    simp

theorem post_nodup : ∀ t : T α, (postPaths t).Nodup := by
  intro t
  induction t with
  | nil => simp [postPaths]
  | node k l r ihl ihr =>
    rw [postPaths]
    have hinjR : Function.Injective (fun q : DPath => Dir.R :: q) := by
      intro a b h; simpa using h
    have hinjL : Function.Injective (fun q : DPath => Dir.L :: q) := by
      intro a b h; simpa using h
    refine List.Nodup.append (List.Nodup.append (ihr.map hinjR) (ihl.map hinjL)
      ?_) (by simp) ?_
    · intro x hx hy
      rcases List.mem_map.mp hx with ⟨a, _, ha⟩
      rcases List.mem_map.mp hy with ⟨b, _, hb⟩
      rw [← ha] at hb
      simp at hb
    · intro x hx hy
      simp only [List.mem_singleton] at hy
      subst hy
      simp at hx

theorem pre_nodup : ∀ t : T α, (prePaths t).Nodup := by
  intro t
  induction t with
  | nil => simp [prePaths]
  | node k l r ihl ihr =>
    rw [prePaths, List.nodup_cons]
    constructor
    · intro hx
      simp at hx
    · have hinjR : Function.Injective (fun q : DPath => Dir.R :: q) := by
        intro a b h; simpa using h
      have hinjL : Function.Injective (fun q : DPath => Dir.L :: q) := by
        intro a b h; simpa using h
      refine List.Nodup.append (ihl.map hinjL) (ihr.map hinjR) ?_
      intro x hx hy
      rcases List.mem_map.mp hx with ⟨a, _, ha⟩
      rcases List.mem_map.mp hy with ⟨b, _, hb⟩
      rw [← ha] at hb
      simp at hb

/-- Every enumerated position addresses a real node. -/
theorem mem_post_sub : ∀ (t : T α) (p : DPath), p ∈ postPaths t →
    ∃ k l r, subtreeAt t p = some (T.node k l r) := by
  intro t
  induction t with
  | nil => intro p h; simp [postPaths] at h
  | node k l r ihl ihr =>
    intro p h
    rw [postPaths] at h
    rcases List.mem_append.mp h with h1 | h2
    · rcases List.mem_append.mp h1 with ha | hb
      · rcases List.mem_map.mp ha with ⟨q, hq, rfl⟩
        obtain ⟨k', l', r', hs⟩ := ihr q hq
        exact ⟨k', l', r', by simpa [subtreeAt] using hs⟩
      · rcases List.mem_map.mp hb with ⟨q, hq, rfl⟩
        obtain ⟨k', l', r', hs⟩ := ihl q hq
        exact ⟨k', l', r', by simpa [subtreeAt] using hs⟩
    · simp only [List.mem_singleton] at h2
      subst h2
      exact ⟨k, l, r, rfl⟩

theorem post_keys : ∀ t : T α,
    (postPaths t).map (keyAt t) = (postKeys t).map some := by
  intro t
  induction t with
  | nil => simp [postPaths, postKeys]
  | node k l r ihl ihr =>
    rw [postPaths, postKeys]
    simp only [List.map_append, List.map_map]
    have eR : (keyAt (T.node k l r) ∘ fun q => Dir.R :: q) = keyAt r :=
      funext fun q => rfl
    have eL : (keyAt (T.node k l r) ∘ fun q => Dir.L :: q) = keyAt l :=
      funext fun q => rfl
    rw [eR, eL, ihl, ihr]
    simp [keyAt]

theorem pre_keys : ∀ t : T α,
    (prePaths t).map (keyAt t) = (preKeys t).map some := by
  intro t
  induction t with
  | nil => simp [prePaths, preKeys]
  | node k l r ihl ihr =>
    rw [prePaths, preKeys]
    simp only [List.map_cons, List.map_append, List.map_map]
    have eR : (keyAt (T.node k l r) ∘ fun q => Dir.R :: q) = keyAt r :=
      funext fun q => rfl
    have eL : (keyAt (T.node k l r) ∘ fun q => Dir.L :: q) = keyAt l :=
      funext fun q => rfl
    rw [eR, eL, ihl, ihr]
    simp [keyAt]

theorem postKeys_toMul : ∀ t : T α, (postKeys t : Multiset α) = toMul t := by
  intro t
  induction t with
  | nil => simp [postKeys, toMul]
  | node k l r ihl ihr =>
    rw [postKeys, toMul, ← ihl, ← ihr]
    rw [← Multiset.coe_add, ← Multiset.coe_add, Multiset.coe_singleton]
    abel

theorem preKeys_toMul : ∀ t : T α, (preKeys t : Multiset α) = toMul t := by
  intro t
  induction t with
  | nil => simp [preKeys, toMul]
  | node k l r ihl ihr =>
    rw [preKeys, toMul, ← ihl, ← ihr]
    rw [← Multiset.cons_coe, ← Multiset.coe_add, Multiset.singleton_add,
      Multiset.cons_add]

end BT

/-- Splitting `X ++ [z]` at an element: either the element is the final
`z`, or the split happens inside `X`. -/
theorem concat_split {β : Type} :
    ∀ (A X : List β) {z p : β} {U : List β}, X ++ [z] = A ++ p :: U →
    (U = [] ∧ p = z ∧ A = X) ∨ (∃ U', U = U' ++ [z] ∧ X = A ++ p :: U') := by
  intro A
  induction A with
  | nil =>
    intro X z p U h
    simp only [List.nil_append] at h
    cases X with
    | nil =>
      simp only [List.nil_append] at h
      injection h with h1 h2
      exact Or.inl ⟨h2.symm, h1.symm, rfl⟩
    | cons x X' =>
      simp only [List.cons_append] at h
      injection h with h1 h2
      exact Or.inr ⟨X', h2.symm, by rw [h1]; rfl⟩
  | cons a A' ih =>
    intro X z p U h
    cases X with
    | nil =>
      simp only [List.nil_append, List.cons_append] at h
      injection h with h1 h2
      exact absurd h2.symm (by simp)
    | cons x X' =>
      simp only [List.cons_append] at h
      injection h with h1 h2
      rcases ih X' h2 with ⟨e1, e2, e3⟩ | ⟨U', e1, e2⟩
      · exact Or.inl ⟨e1, e2, by rw [h1, e3]⟩
      · exact Or.inr ⟨U', e1, by rw [h1, e2]; rfl⟩

/-- Splitting `X ++ Y` at an element: the element lies in `X` or in `Y`,
with the matching sub-decomposition. -/
theorem append_cons_split {β : Type} :
    ∀ (X Y A : List β) {p : β} {U : List β}, X ++ Y = A ++ p :: U →
    (∃ B V, X = B ++ p :: V ∧ A = B ∧ U = V ++ Y) ∨
    (∃ B V, Y = B ++ p :: V ∧ A = X ++ B ∧ U = V) := by
  intro X
  induction X with
  | nil =>
    intro Y A p U h
    exact Or.inr ⟨A, U, by simpa using h, by simp, rfl⟩
  | cons x X' ih =>
    intro Y A p U h
    cases A with
    | nil =>
      simp only [List.cons_append, List.nil_append] at h
      injection h with h1 h2
      exact Or.inl ⟨[], X', by rw [h1]; rfl, rfl, h2.symm⟩
    | cons a A' =>
      simp only [List.cons_append] at h
      injection h with h1 h2
      rcases ih Y A' h2 with ⟨B, V, e1, e2, e3⟩ | ⟨B, V, e1, e2, e3⟩
      · exact Or.inl ⟨x :: B, V, by rw [e1]; rfl, by rw [h1, e2], e3⟩
      · exact Or.inr ⟨B, V, e1, by rw [h1, e2]; rfl, e3⟩

namespace BT

variable {α : Type}

/-- `_iter_succ` advances one step along the right-to-left postorder
enumeration: wherever the current position sits in it, the function
returns the next entry, and `end()` (`none`) after the last. -/
theorem succStep : ∀ (t : T α) {A U : List DPath} {p : DPath},
    postPaths t = A ++ p :: U → succP t p = U.head? := by
  intro t
  induction t with
  | nil =>
    intro A U p h
    rw [postPaths] at h
    exact absurd h (by simp)
  | node k l r ihl ihr =>
    intro A U p h
    rw [postPaths] at h
    rcases concat_split A _ h with ⟨hU, hp, hA⟩ | ⟨U', hU, hX⟩
    · subst hU hp
      rfl
    · rcases append_cons_split _ _ A hX with ⟨B, V, hMR, hA, hU'⟩ |
        ⟨B, V, hML, hA, hU'⟩
      · obtain ⟨A₀, q, U₀, hpr, hB, hpq, hV⟩ := map_split _ _ hMR
        subst hpq
        have hs := ihr hpr
        rw [succP]
        cases U₀ with
        | cons u U₀' =>
          rw [hs]
          simp only [List.head?_cons]
          subst hU hU' hV
          simp
        | nil =>
          rw [hs]
          simp only [List.head?_nil]
          subst hU hU' hV
          by_cases hl : isNil l = true
          · rw [if_pos hl, (isNil_true_iff l).mp hl]
            simp [postPaths]
          · rw [if_neg hl]
            have hh := post_head l (by simpa using hl)
            rcases hx : postPaths l with _ | ⟨x, xs⟩
            · rw [hx] at hh; simp at hh
            · rw [hx] at hh
              simp only [List.head?_cons, Option.some.injEq] at hh
              simp [hx, hh]
      · obtain ⟨A₀, q, U₀, hpl, hB, hpq, hV⟩ := map_split _ _ hML
        subst hpq
        have hs := ihl hpl
        rw [succP]
        cases U₀ with
        | cons u U₀' =>
          rw [hs]
          simp only [List.head?_cons]
          subst hU hU' hV
          simp
        | nil =>
          rw [hs]
          simp only [List.head?_nil]
          subst hU hU' hV
          simp

end BT

namespace BT

variable {α : Type}

/-- `_iter_pred` steps one position backward along the left-to-right
preorder enumeration; after the last entry (the deepest spine leaf) the
walk escapes to the sentinel, which is the out-of-range throw. -/
theorem predStep : ∀ (t : T α) {A U : List DPath} {p : DPath},
    prePaths t = A ++ p :: U → predStepP t p = U.head? := by
  intro t
  induction t with
  | nil =>
    intro A U p h
    rw [prePaths] at h
    exact absurd h (by simp)
  | node k l r ihl ihr =>
    intro A U p h
    rw [prePaths] at h
    cases A with
    | nil =>
      simp only [List.nil_append] at h
      injection h with h1 h2
      subst h1
      rw [predStepP, ← h2]
      by_cases hl : isNil l = true
      · have hle : l = T.nil := (isNil_true_iff l).mp hl
        subst hle
        by_cases hr : isNil r = true
        · have hre : r = T.nil := (isNil_true_iff r).mp hr
          subst hre
          simp [isNil, prePaths]
        · have hh := pre_head r (by simpa using hr)
          rcases hx : prePaths r with _ | ⟨x, xs⟩
          · rw [hx] at hh; simp at hh
          · rw [hx] at hh
            simp only [List.head?_cons, Option.some.injEq] at hh
            rw [show isNil r = false from by simpa using hr]
            simp [isNil, prePaths, hx, hh]
      · have hh := pre_head l (by simpa using hl)
        rcases hx : prePaths l with _ | ⟨x, xs⟩
        · rw [hx] at hh; simp at hh
        · rw [hx] at hh
          simp only [List.head?_cons, Option.some.injEq] at hh
          rw [show isNil l = false from by simpa using hl]
          simp [hx, hh]
    | cons a A' =>
      injection h with h1 h2
      rcases append_cons_split _ _ A' h2 with ⟨B, V, hML, hA, hU⟩ |
        ⟨B, V, hMR, hA, hU⟩
      · obtain ⟨A₀, q, U₀, hpl, hB, hpq, hV⟩ := map_split _ _ hML
        subst hpq
        have hsp := ihl hpl
        rw [predStepP]
        cases U₀ with
        | cons u U₀' =>
          rw [hsp]
          simp only [List.head?_cons]
          subst hU hV
          simp
        | nil =>
          rw [hsp]
          simp only [List.head?_nil]
          subst hU hV
          by_cases hr : isNil r = true
          · rw [if_pos hr, (isNil_true_iff r).mp hr]
            simp [prePaths]
          · rw [if_neg hr]
            have hh := pre_head r (by simpa using hr)
            rcases hx : prePaths r with _ | ⟨x, xs⟩
            · rw [hx] at hh; simp at hh
            · rw [hx] at hh
              simp only [List.head?_cons, Option.some.injEq] at hh
              simp [hx, hh]
      · obtain ⟨A₀, q, U₀, hpr, hB, hpq, hV⟩ := map_split _ _ hMR
        subst hpq
        have hsp := ihr hpr
        rw [predStepP]
        cases U₀ with
        | cons u U₀' =>
          rw [hsp]
          simp only [List.head?_cons]
          subst hU hV
          simp
        | nil =>
          rw [hsp]
          subst hU hV
          simp

end BT

namespace BT

variable {α : Type}

/-- Replacing the subtree at a valid position rewrites one contiguous
block of the postorder enumeration (the block of positions below the
node, which ends at the position itself) and leaves the enumeration and
the stored keys outside the block untouched. -/
theorem post_subst : ∀ (p : DPath) (t sub : T α), subtreeAt t p = some sub →
    ∃ B C, postPaths t = B ++ (postPaths sub).map (fun q => p ++ q) ++ C ∧
      (∀ s : T α, postPaths (substAt t p s)
        = B ++ (postPaths s).map (fun q => p ++ q) ++ C) ∧
      (∀ (s : T α) (c : DPath), c ∈ C →
        keyAt (substAt t p s) c = keyAt t c) := by
  intro p
  induction p with
  | nil =>
    intro t sub h
    rw [subtreeAt] at h
    injection h with h
    subst h
    refine ⟨[], [], by simp, ?_, ?_⟩
    · intro s
      rw [substAt]
      simp
    · intro s c hc
      simp at hc
  | cons d q ih =>
    intro t sub h
    cases t with
    | nil =>
      rw [show subtreeAt (T.nil (α := α)) (d :: q) = none from rfl] at h
      exact absurd h (by simp)
    | node k l r =>
      cases d with
      | L =>
        rw [show subtreeAt (T.node k l r) (Dir.L :: q) = subtreeAt l q
          from rfl] at h
        obtain ⟨B', C', h1, h2, h3⟩ := ih l sub h
        refine ⟨(postPaths r).map (fun u => Dir.R :: u)
            ++ B'.map (fun u => Dir.L :: u),
          C'.map (fun u => Dir.L :: u) ++ [[]], ?_, ?_, ?_⟩
        · rw [postPaths, h1]
          simp [List.map_append, List.map_map, List.append_assoc,
            Function.comp]
        · intro s
          rw [show substAt (T.node k l r) (Dir.L :: q) s
            = T.node k (substAt l q s) r from rfl]
          rw [postPaths, h2 s]
          simp [List.map_append, List.map_map, List.append_assoc,
            Function.comp]
        · intro s c hc
          rw [show substAt (T.node k l r) (Dir.L :: q) s
            = T.node k (substAt l q s) r from rfl]
          rcases List.mem_append.mp hc with h1c | h2c
          · rcases List.mem_map.mp h1c with ⟨c', hc', rfl⟩
            rw [show keyAt (T.node k (substAt l q s) r) (Dir.L :: c')
              = keyAt (substAt l q s) c' from rfl]
            rw [show keyAt (T.node k l r) (Dir.L :: c') = keyAt l c'
              from rfl]
            exact h3 s c' hc'
          · simp only [List.mem_singleton] at h2c
            subst h2c
            rfl
      | R =>
        rw [show subtreeAt (T.node k l r) (Dir.R :: q) = subtreeAt r q
          from rfl] at h
        obtain ⟨B', C', h1, h2, h3⟩ := ih r sub h
        refine ⟨B'.map (fun u => Dir.R :: u),
          C'.map (fun u => Dir.R :: u)
            ++ (postPaths l).map (fun u => Dir.L :: u) ++ [[]], ?_, ?_, ?_⟩
        · rw [postPaths, h1]
          simp [List.map_append, List.map_map, List.append_assoc,
            Function.comp]
        · intro s
          rw [show substAt (T.node k l r) (Dir.R :: q) s
            = T.node k l (substAt r q s) from rfl]
          rw [postPaths, h2 s]
          simp [List.map_append, List.map_map, List.append_assoc,
            Function.comp]
        · intro s c hc
          rw [show substAt (T.node k l r) (Dir.R :: q) s
            = T.node k l (substAt r q s) from rfl]
          rcases List.mem_append.mp hc with h1c | h2c
          · rcases List.mem_append.mp h1c with h3c | h4c
            · rcases List.mem_map.mp h3c with ⟨c', hc', rfl⟩
              rw [show keyAt (T.node k l (substAt r q s)) (Dir.R :: c')
                = keyAt (substAt r q s) c' from rfl]
              rw [show keyAt (T.node k l r) (Dir.R :: c') = keyAt r c'
                from rfl]
              exact h3 s c' hc'
            · rcases List.mem_map.mp h4c with ⟨c', hc', rfl⟩
              rfl
          · simp only [List.mem_singleton] at h2c
            subst h2c
            rfl

end BT

namespace MD

variable {α : Type}

/-- The link shape of an MD3 node, which is all that `_abseil`,
`_iter_succ` and `_iter_pred` read (`dist` is never consulted by the
traversal). -/
def toBT : Tree α → BT.T α
  | .nil => .nil
  | .node k l r _ => .node k (toBT l) (toBT r)

/-- Follow a direction path down the `l`/`r` links. -/
def subtreeAt : Tree α → DPath → Option (Tree α)
  | t, [] => some t
  | .nil, _ :: _ => none
  | .node _ l _ _, .L :: q => subtreeAt l q
  | .node _ _ r _, .R :: q => subtreeAt r q

/-- Phase III of `_merge` as entered from `_ncut`: the melded replacement
goes into the slot at `p`; the slot's parent gets a forced `dist` refresh
(the `steps` counter is still nonnegative there), and each ancestor above
a conditional one that stops at the first node whose stored `dist`
already equals `min(child dists) + 1`. The Bool records whether the
upward loop is still running. -/
def replaceFix : Tree α → DPath → Tree α → Tree α × Bool
  | _, [], s => (s, true)
  | .nil, _ :: _, _ => (.nil, false)
  | .node k l r d, .L :: q, s =>
    match replaceFix l q s with
    | (l', cont) =>
      if cont then
        if q = [] then (.node k l' r (min (distOf l') (distOf r) + 1), true)
        else if min (distOf l') (distOf r) + 1 = d then (.node k l' r d, false)
        else (.node k l' r (min (distOf l') (distOf r) + 1), true)
      else (.node k l' r d, false)
  | .node k l r d, .R :: q, s =>
    match replaceFix r q s with
    | (r', cont) =>
      if cont then
        if q = [] then (.node k l r' (min (distOf l) (distOf r') + 1), true)
        else if min (distOf l) (distOf r') + 1 = d then (.node k l r' d, false)
        else (.node k l r' (min (distOf l) (distOf r') + 1), true)
      else (.node k l r' d, false)

/-- `_ncut(node)` at position `p`: `_merge(parent, &slot, node->l,
node->r)` melds the children into the very slot that held the node and
refreshes `dist` upward from the parent. -/
def ncutAt (lt : α → α → Bool) (t : Tree α) (p : DPath) : Tree α :=
  match subtreeAt t p with
  | some (.node _ l r _) => (replaceFix t p (merge lt l r)).1
  | _ => t

/-- The C4 traversal: visit the current node (reading its payload), then
either `remove(it)` — which computes the successor before `_ncut`, as the
facade does — or step with `++it`; `del` chooses which visits delete. -/
def runDel (lt : α → α → Bool) : Nat → Tree α → Option DPath →
    (Nat → Bool) → Nat → List (DPath × Option α)
  | 0, _, _, _, _ => []
  | _ + 1, _, none, _, _ => []
  | fuel + 1, t, some p, del, i =>
    (p, BT.keyAt (toBT t) p) ::
      runDel lt fuel (if del i then ncutAt lt t p else t)
        (BT.succP (toBT t) p) del (i + 1)

theorem runDel_none (lt : α → α → Bool) (f : Nat) (t : Tree α)
    (del : Nat → Bool) (i : Nat) : runDel lt f t none del i = [] := by
  cases f <;> rfl

theorem size_toBT : ∀ t : Tree α, BT.size (toBT t) = size t := by
  intro t
  induction t with
  | nil => rfl
  | node k l r d ihl ihr => simp [toBT, BT.size, size, ihl, ihr]

theorem toMul_toBT : ∀ t : Tree α, BT.toMul (toBT t) = toMul t := by
  intro t
  induction t with
  | nil => rfl
  | node k l r d ihl ihr => simp [toBT, BT.toMul, toMul, ihl, ihr]

theorem subtreeAt_toBT : ∀ (p : DPath) (t : Tree α),
    BT.subtreeAt (toBT t) p = (subtreeAt t p).map toBT := by
  intro p
  induction p with
  | nil => intro t; cases t <;> rfl
  | cons d q ih =>
    intro t
    cases t with
    | nil => cases d <;> rfl
    | node k l r dd =>
      cases d with
      | L =>
        rw [show subtreeAt (Tree.node k l r dd) (Dir.L :: q) = subtreeAt l q
          from rfl]
        exact ih l
      | R =>
        rw [show subtreeAt (Tree.node k l r dd) (Dir.R :: q) = subtreeAt r q
          from rfl]
        exact ih r

theorem replaceFix_toBT : ∀ (p : DPath) (t s : Tree α),
    toBT (replaceFix t p s).1 = BT.substAt (toBT t) p (toBT s) := by
  intro p
  induction p with
  | nil => intro t s; cases t <;> rfl
  | cons d q ih =>
    intro t s
    cases t with
    | nil => cases d <;> rfl
    | node k l r dd =>
      cases d with
      | L =>
        rw [show replaceFix (Tree.node k l r dd) (Dir.L :: q) s
          = match replaceFix l q s with
            | (l', cont) =>
              if cont then
                if q = [] then
                  (.node k l' r (min (distOf l') (distOf r) + 1), true)
                else if min (distOf l') (distOf r) + 1 = dd then
                  (.node k l' r dd, false)
                else (.node k l' r (min (distOf l') (distOf r) + 1), true)
              else (.node k l' r dd, false) from rfl]
        rcases hx : replaceFix l q s with ⟨l', cont⟩
        have hl' : toBT l' = BT.substAt (toBT l) q (toBT s) := by
          rw [← ih l s, hx]
        dsimp only
        split
        · split
          · simp [toBT, BT.substAt, hl']
          · split
            · simp [toBT, BT.substAt, hl']
            · simp [toBT, BT.substAt, hl']
        · simp [toBT, BT.substAt, hl']
      | R =>
        rw [show replaceFix (Tree.node k l r dd) (Dir.R :: q) s
          = match replaceFix r q s with
            | (r', cont) =>
              if cont then
                if q = [] then
                  (.node k l r' (min (distOf l) (distOf r') + 1), true)
                else if min (distOf l) (distOf r') + 1 = dd then
                  (.node k l r' dd, false)
                else (.node k l r' (min (distOf l) (distOf r') + 1), true)
              else (.node k l r' dd, false) from rfl]
        rcases hx : replaceFix r q s with ⟨r', cont⟩
        have hr' : toBT r' = BT.substAt (toBT r) q (toBT s) := by
          rw [← ih r s, hx]
        dsimp only
        split
        · split
          · simp [toBT, BT.substAt, hr']
          · split
            · simp [toBT, BT.substAt, hr']
            · simp [toBT, BT.substAt, hr']
        · simp [toBT, BT.substAt, hr']

end MD

namespace MD

variable {α : Type}

theorem ncutAt_toBT (lt : α → α → Bool) (t : Tree α) (p : DPath)
    {k0 : α} {l0 r0 : Tree α} {d0 : Int}
    (h : subtreeAt t p = some (.node k0 l0 r0 d0)) :
    toBT (ncutAt lt t p) = BT.substAt (toBT t) p (toBT (merge lt l0 r0)) := by
  rw [ncutAt, h]
  exact replaceFix_toBT p t (merge lt l0 r0)

/-- The deletion run from any position: whatever subset of the visited
nodes is removed on the fly, the run still walks the postorder suffix
from that position, reading each surviving original payload. -/
theorem runDel_spec (lt : α → α → Bool) :
    ∀ (U : List DPath) (fuel : Nat) (t : Tree α) (A : List DPath)
      (p : DPath) (del : Nat → Bool) (i : Nat),
    BT.postPaths (toBT t) = A ++ p :: U → U.length < fuel →
    runDel lt fuel t (some p) del i
      = (p :: U).map (fun x => (x, BT.keyAt (toBT t) x)) := by
  intro U
  induction U with
  | nil =>
    intro fuel t A p del i h hf
    cases fuel with
    | zero => exact (Nat.not_lt_zero _ hf).elim
    | succ m =>
      rw [runDel]
      have hs := BT.succStep (toBT t) h
      simp only [List.head?_nil] at hs
      rw [hs, runDel_none]
      rfl
  | cons u U' ih =>
    intro fuel t A p del i h hf
    cases fuel with
    | zero => exact (Nat.not_lt_zero _ hf).elim
    | succ m =>
      rw [runDel]
      have hs := BT.succStep (toBT t) h
      simp only [List.head?_cons] at hs
      rw [hs]
      by_cases hdel : del i = true
      · rw [if_pos hdel]
        have hpmem : p ∈ BT.postPaths (toBT t) := by
          rw [h]
          exact List.mem_append_right _ (List.mem_cons_self _ _)
        obtain ⟨k0, l0b, r0b, hsubB⟩ := BT.mem_post_sub (toBT t) p hpmem
        have hmap := subtreeAt_toBT p t
        rw [hsubB] at hmap
        rcases hmd : subtreeAt t p with _ | x
        · rw [hmd] at hmap
          simp at hmap
        · rw [hmd] at hmap
          cases x with
          | nil => simp [toBT] at hmap
          | node k1 l1 r1 d1 =>
            obtain ⟨B, C, hB1, hB2, hB3⟩ :=
              BT.post_subst p (toBT t) _ hsubB
            have hB1' : BT.postPaths (toBT t)
                = (B ++ ((BT.postPaths r0b).map (fun u => Dir.R :: u)
                    ++ (BT.postPaths l0b).map (fun u => Dir.L :: u)).map
                    (fun q => p ++ q)) ++ p :: C := by
              rw [hB1]
              simp [BT.postPaths, List.map_append, List.append_assoc]
            have hsplit := nodup_split A (BT.post_nodup (toBT t)) h hB1'
            have hCeq : u :: U' = C := hsplit.2
            have htB := ncutAt_toBT lt t p hmd
            have hpost' : BT.postPaths (toBT (ncutAt lt t p))
                = (B ++ (BT.postPaths (toBT (merge lt l1 r1))).map
                    (fun q => p ++ q)) ++ u :: U' := by
              rw [htB, hB2 (toBT (merge lt l1 r1)), ← hCeq]
            have ihres := ih m (ncutAt lt t p) _ u del (i + 1) hpost'
              (by simp at hf; omega)
            rw [ihres]
            have hkeys : (u :: U').map
                  (fun x => (x, BT.keyAt (toBT (ncutAt lt t p)) x))
                = (u :: U').map (fun x => (x, BT.keyAt (toBT t) x)) := by
              refine List.map_congr_left ?_
              intro x hx
              have hxC : x ∈ C := by rw [← hCeq]; exact hx
              have := hB3 (toBT (merge lt l1 r1)) x hxC
              rw [htB, this]
            rw [hkeys]
            rfl
      · rw [if_neg hdel]
        have ihres := ih m t (A ++ [p]) u del (i + 1)
          (by rw [h]; simp) (by simp at hf; omega)
        rw [ihres]
        rfl

end MD

namespace PH

variable {α : Type}

/-- The link shape of a PH3 node: `_m_down` is the `l` link and
`_m_next` the `r` link of the shared traversal view, which is exactly
the correspondence under which `_abseil`/`_iter_succ`/`_iter_pred` of
part_003 are textually the MD3 ones. -/
def toBT : PTree α → BT.T α
  | .nil => .nil
  | .node k d n => .node k (toBT d) (toBT n)

/-- Follow a direction path down the `down`/`next` links. -/
def subtreeAt : PTree α → DPath → Option (PTree α)
  | t, [] => some t
  | .nil, _ :: _ => none
  | .node _ d _, .L :: q => subtreeAt d q
  | .node _ _ n, .R :: q => subtreeAt n q

/-- Plain slot replacement: PH3 keeps no cached `dist`, so the splice of
`_ncut` (`_cons(pred, x)` or `_dunk(pred, x)` depending on which link
held the node) rewrites exactly one link. -/
def substAt : PTree α → DPath → PTree α → PTree α
  | _, [], s => s
  | .nil, _ :: _, _ => .nil
  | .node k d n, .L :: q, s => .node k (substAt d q s) n
  | .node k d n, .R :: q, s => .node k d (substAt n q s)

/-- PH3 `_ncut(node)`: the replacement `_cons(_build(node->_m_down),
node->_m_next)` goes into the slot that held the node. -/
def ncutAt (lt : α → α → Bool) (t : PTree α) (p : DPath) : PTree α :=
  match subtreeAt t p with
  | some (.node _ d n) => substAt t p (cons (build lt d) n)
  | _ => t

/-- The C4 traversal for PH3, as for MD3: visit, then `remove(it)` or
`++it` according to `del`. -/
def runDel (lt : α → α → Bool) : Nat → PTree α → Option DPath →
    (Nat → Bool) → Nat → List (DPath × Option α)
  | 0, _, _, _, _ => []
  | _ + 1, _, none, _, _ => []
  | fuel + 1, t, some p, del, i =>
    (p, BT.keyAt (toBT t) p) ::
      runDel lt fuel (if del i then ncutAt lt t p else t)
        (BT.succP (toBT t) p) del (i + 1)

theorem runDel_none_ph (lt : α → α → Bool) (f : Nat) (t : PTree α)
    (del : Nat → Bool) (i : Nat) : runDel lt f t none del i = [] := by
  cases f <;> rfl

theorem size_toBT_ph : ∀ t : PTree α, BT.size (toBT t) = (toMul t).card := by
  intro t
  induction t with
  | nil => rfl
  | node k d n ihd ihn => simp [toBT, BT.size, toMul, ihd, ihn]

theorem toMul_toBT_ph : ∀ t : PTree α, BT.toMul (toBT t) = toMul t := by
  intro t
  induction t with
  | nil => rfl
  | node k d n ihd ihn => simp [toBT, BT.toMul, toMul, ihd, ihn]

theorem subtreeAt_toBT_ph : ∀ (p : DPath) (t : PTree α),
    BT.subtreeAt (toBT t) p = (subtreeAt t p).map toBT := by
  intro p
  induction p with
  | nil => intro t; cases t <;> rfl
  | cons d q ih =>
    intro t
    cases t with
    | nil => cases d <;> rfl
    | node k dd nn =>
      cases d with
      | L =>
        rw [show subtreeAt (PTree.node k dd nn) (Dir.L :: q) = subtreeAt dd q
          from rfl]
        exact ih dd
      | R =>
        rw [show subtreeAt (PTree.node k dd nn) (Dir.R :: q) = subtreeAt nn q
          from rfl]
        exact ih nn

theorem substAt_toBT : ∀ (p : DPath) (t s : PTree α),
    toBT (substAt t p s) = BT.substAt (toBT t) p (toBT s) := by
  intro p
  induction p with
  | nil => intro t s; cases t <;> rfl
  | cons d q ih =>
    intro t s
    cases t with
    | nil => cases d <;> rfl
    | node k dd nn =>
      cases d with
      | L =>
        rw [show substAt (PTree.node k dd nn) (Dir.L :: q) s
          = PTree.node k (substAt dd q s) nn from rfl]
        simp [toBT, BT.substAt, ih dd s]
      | R =>
        rw [show substAt (PTree.node k dd nn) (Dir.R :: q) s
          = PTree.node k dd (substAt nn q s) from rfl]
        simp [toBT, BT.substAt, ih nn s]

theorem ncutAt_toBT_ph (lt : α → α → Bool) (t : PTree α) (p : DPath)
    {k0 : α} {d0 n0 : PTree α}
    (h : subtreeAt t p = some (.node k0 d0 n0)) :
    toBT (ncutAt lt t p)
      = BT.substAt (toBT t) p (toBT (cons (build lt d0) n0)) := by
  rw [ncutAt, h]
  exact substAt_toBT p t (cons (build lt d0) n0)

/-- The deletion run from any position, PH3 version. -/
theorem runDel_spec_ph (lt : α → α → Bool) :
    ∀ (U : List DPath) (fuel : Nat) (t : PTree α) (A : List DPath)
      (p : DPath) (del : Nat → Bool) (i : Nat),
    BT.postPaths (toBT t) = A ++ p :: U → U.length < fuel →
    runDel lt fuel t (some p) del i
      = (p :: U).map (fun x => (x, BT.keyAt (toBT t) x)) := by
  intro U
  induction U with
  | nil =>
    intro fuel t A p del i h hf
    cases fuel with
    | zero => exact (Nat.not_lt_zero _ hf).elim
    | succ m =>
      rw [runDel]
      have hs := BT.succStep (toBT t) h
      simp only [List.head?_nil] at hs
      rw [hs, runDel_none_ph]
      rfl
  | cons u U' ih =>
    intro fuel t A p del i h hf
    cases fuel with
    | zero => exact (Nat.not_lt_zero _ hf).elim
    | succ m =>
      rw [runDel]
      have hs := BT.succStep (toBT t) h
      simp only [List.head?_cons] at hs
      rw [hs]
      by_cases hdel : del i = true
      · rw [if_pos hdel]
        have hpmem : p ∈ BT.postPaths (toBT t) := by
          rw [h]
          exact List.mem_append_right _ (List.mem_cons_self _ _)
        obtain ⟨k0, l0b, r0b, hsubB⟩ := BT.mem_post_sub (toBT t) p hpmem
        have hmap := subtreeAt_toBT_ph p t
        rw [hsubB] at hmap
        rcases hmd : subtreeAt t p with _ | x
        · rw [hmd] at hmap
          simp at hmap
        · rw [hmd] at hmap
          cases x with
          | nil => simp [toBT] at hmap
          | node k1 d1 n1 =>
            obtain ⟨B, C, hB1, hB2, hB3⟩ :=
              BT.post_subst p (toBT t) _ hsubB
            have hB1' : BT.postPaths (toBT t)
                = (B ++ ((BT.postPaths r0b).map (fun u => Dir.R :: u)
                    ++ (BT.postPaths l0b).map (fun u => Dir.L :: u)).map
                    (fun q => p ++ q)) ++ p :: C := by
              rw [hB1]
              simp [BT.postPaths, List.map_append, List.append_assoc]
            have hsplit := nodup_split A (BT.post_nodup (toBT t)) h hB1'
            have hCeq : u :: U' = C := hsplit.2
            have htB := ncutAt_toBT_ph lt t p hmd
            have hpost' : BT.postPaths (toBT (ncutAt lt t p))
                = (B ++ (BT.postPaths (toBT (cons (build lt d1) n1))).map
                    (fun q => p ++ q)) ++ u :: U' := by
              rw [htB, hB2 (toBT (cons (build lt d1) n1)), ← hCeq]
            have ihres := ih m (ncutAt lt t p) _ u del (i + 1) hpost'
              (by simp at hf; omega)
            rw [ihres]
            have hkeys : (u :: U').map
                  (fun x => (x, BT.keyAt (toBT (ncutAt lt t p)) x))
                = (u :: U').map (fun x => (x, BT.keyAt (toBT t) x)) := by
              refine List.map_congr_left ?_
              intro x hx
              have hxC : x ∈ C := by rw [← hCeq]; exact hx
              have := hB3 (toBT (cons (build lt d1) n1)) x hxC
              rw [htB, this]
            rw [hkeys]
            rfl
      · rw [if_neg hdel]
        have ihres := ih m t (A ++ [p]) u del (i + 1)
          (by rw [h]; simp) (by simp at hf; omega)
        rw [ihres]
        rfl

end PH

namespace BT

variable {α : Type}

/-- `--it` from a position inside the enumeration walks the remaining
preorder suffix and then throws. -/
theorem predRun_tail (t : T α) :
    ∀ (U A : List DPath) (p : DPath) (n : Nat),
    prePaths t = A ++ p :: U → U.length ≤ n →
    predRun t n (some p) = U := by
  intro U
  induction U with
  | nil =>
    intro A p n h hn
    have hs := predStep t h
    simp only [List.head?_nil] at hs
    cases n with
    | zero => rfl
    | succ m =>
      rw [predRun]
      simp only [predP]
      rw [hs]
  | cons u U' ih =>
    intro A p n h hn
    have hs := predStep t h
    simp only [List.head?_cons] at hs
    cases n with
    | zero => simp at hn
    | succ m =>
      rw [predRun]
      simp only [predP]
      rw [hs]
      show u :: predRun t m (some u) = u :: U'
      have := ih (A ++ [p]) u m (by rw [h]; simp) (by simp at hn; omega)
      rw [this]

/-- `--it` from `end()` with enough fuel walks the whole preorder
enumeration and stops (the next decrement throws). -/
theorem predRun_all (t : T α) (n : Nat) (hn : size t ≤ n) :
    predRun t (n + 1) none = prePaths t := by
  rw [predRun]
  by_cases ht : isNil t = true
  · simp only [predP, if_pos ht]
    rw [(isNil_true_iff t).mp ht]
    rfl
  · simp only [predP, if_neg ht]
    have hh := pre_head t (by simpa using ht)
    rcases hx : prePaths t with _ | ⟨x, xs⟩
    · rw [hx] at hh; simp at hh
    · rw [hx] at hh
      simp only [List.head?_cons, Option.some.injEq] at hh
      subst hh
      have hlen : xs.length ≤ n := by
        have := prePaths_length t
        rw [hx] at this
        simp at this
        omega
      show ([] : DPath) :: predRun t n (some []) = [] :: xs
      rw [predRun_tail t xs [] [] n (by rw [hx]; rfl) hlen]

/-- After the whole backward walk, the next decrement (equivalently,
`--begin()`, or `--end()` on an empty heap) escapes to the sentinel and
throws. -/
theorem predRun_last (t : T α) :
    predP t ((prePaths t).getLast? ) = none := by
  rcases hx : (prePaths t).getLast? with _ | p
  · rw [predP]
    have : isNil t = true := by
      by_contra hc
      have hh := pre_head t (by simpa using hc)
      rcases hy : prePaths t with _ | ⟨x, xs⟩
      · rw [hy] at hh; simp at hh
      · rw [hy] at hx
        simp at hx
    rw [if_pos this]
  · have hdec := List.getLast?_eq_some_iff.mp hx
    obtain ⟨A, hA⟩ := hdec
    have hs := predStep t (by rw [hA])
    simpa using hs

end BT

-- ===========================================================================
-- C4, C5
-- ===========================================================================

/-- C4: for every MD3 heap and every PH3 heap, start a forward traversal
at `begin()` and, at each visit, either `remove(it)` — continuing from
the successor iterator that `remove` returns — or step with `++it`, as
an arbitrary deletion predicate chooses: the traversal visits exactly the
positions of the original right-to-left postorder enumeration, in order,
reading each original payload, and then reaches `end()`.  The enumeration
is duplicate-free and carries exactly the stored multiset, so every node
that was never removed is visited exactly once. -/
theorem c4_remove_traversal {α : Type} (lt : α → α → Bool)
    (t : MD.Tree α) (u : PH.PTree α) (del del' : Nat → Bool) :
    (MD.runDel lt (MD.size t) t (BT.beginP (MD.toBT t)) del 0
        = (BT.postPaths (MD.toBT t)).map
            (fun x => (x, BT.keyAt (MD.toBT t) x))
      ∧ (BT.postPaths (MD.toBT t)).Nodup
      ∧ (BT.postPaths (MD.toBT t)).map (BT.keyAt (MD.toBT t))
          = (BT.postKeys (MD.toBT t)).map some
      ∧ (BT.postKeys (MD.toBT t) : Multiset α) = MD.toMul t)
    ∧ (PH.runDel lt (BT.size (PH.toBT u)) u (BT.beginP (PH.toBT u)) del' 0
        = (BT.postPaths (PH.toBT u)).map
            (fun x => (x, BT.keyAt (PH.toBT u) x))
      ∧ (BT.postPaths (PH.toBT u)).Nodup
      ∧ (BT.postPaths (PH.toBT u)).map (BT.keyAt (PH.toBT u))
          = (BT.postKeys (PH.toBT u)).map some
      ∧ (BT.postKeys (PH.toBT u) : Multiset α) = PH.toMul u) := by
  constructor
  · refine ⟨?_, BT.post_nodup _, BT.post_keys _,
      by rw [BT.postKeys_toMul, MD.toMul_toBT]⟩
    by_cases hb : BT.isNil (MD.toBT t) = true
    · rw [BT.beginP, if_pos hb, MD.runDel_none, (BT.isNil_true_iff _).mp hb]
      rfl
    · rw [BT.beginP, if_neg hb]
      have hh := BT.post_head _ (by simpa using hb)
      rcases hx : BT.postPaths (MD.toBT t) with _ | ⟨x, xs⟩
      · rw [hx] at hh; simp at hh
      · rw [hx] at hh
        simp only [List.head?_cons, Option.some.injEq] at hh
        rw [← hh]
        have hlen : xs.length < MD.size t := by
          have hl := BT.postPaths_length (MD.toBT t)
          rw [hx, MD.size_toBT] at hl
          simp at hl
          omega
        exact MD.runDel_spec lt xs (MD.size t) t [] x del 0 (by rw [hx]; rfl)
          hlen
  · refine ⟨?_, BT.post_nodup _, BT.post_keys _,
      by rw [BT.postKeys_toMul, PH.toMul_toBT_ph]⟩
    by_cases hb : BT.isNil (PH.toBT u) = true
    · rw [BT.beginP, if_pos hb, PH.runDel_none_ph, (BT.isNil_true_iff _).mp hb]
      rfl
    · rw [BT.beginP, if_neg hb]
      have hh := BT.post_head _ (by simpa using hb)
      rcases hx : BT.postPaths (PH.toBT u) with _ | ⟨x, xs⟩
      · rw [hx] at hh; simp at hh
      · rw [hx] at hh
        simp only [List.head?_cons, Option.some.injEq] at hh
        rw [← hh]
        have hlen : xs.length < BT.size (PH.toBT u) := by
          have hl := BT.postPaths_length (PH.toBT u)
          rw [hx] at hl
          simp at hl
          omega
        exact PH.runDel_spec_ph lt xs (BT.size (PH.toBT u)) u [] x del' 0
          (by rw [hx]; rfl) hlen

/-- C5: for every MD3 heap and every PH3 heap holding N live nodes,
`--it` applied from `end()` walks the left-to-right preorder enumeration
— N pairwise distinct positions carrying exactly the stored multiset —
and stops there: the next decrement escapes past the user root to the
sentinel and raises out-of-range (for an empty heap, `--end()` raises
immediately, since the enumeration is empty and its `getLast?` is the
sentinel `none`). -/
theorem c5_backward_traversal {α : Type} (t : MD.Tree α) (u : PH.PTree α) :
    (BT.predRun (MD.toBT t) (MD.size t + 1) none = BT.prePaths (MD.toBT t)
      ∧ (BT.prePaths (MD.toBT t)).length = MD.size t
      ∧ (BT.prePaths (MD.toBT t)).Nodup
      ∧ BT.predP (MD.toBT t) ((BT.prePaths (MD.toBT t)).getLast?) = none
      ∧ (BT.prePaths (MD.toBT t)).map (BT.keyAt (MD.toBT t))
          = (BT.preKeys (MD.toBT t)).map some
      ∧ (BT.preKeys (MD.toBT t) : Multiset α) = MD.toMul t)
    ∧ (BT.predRun (PH.toBT u) (BT.size (PH.toBT u) + 1) none
          = BT.prePaths (PH.toBT u)
      ∧ (BT.prePaths (PH.toBT u)).length = BT.size (PH.toBT u)
      ∧ (BT.prePaths (PH.toBT u)).Nodup
      ∧ BT.predP (PH.toBT u) ((BT.prePaths (PH.toBT u)).getLast?) = none
      ∧ (BT.prePaths (PH.toBT u)).map (BT.keyAt (PH.toBT u))
          = (BT.preKeys (PH.toBT u)).map some
      ∧ (BT.preKeys (PH.toBT u) : Multiset α) = PH.toMul u) := by
  constructor
  · refine ⟨BT.predRun_all _ _ (le_of_eq (MD.size_toBT t)),
      ?_, BT.pre_nodup _, BT.predRun_last _, BT.pre_keys _,
      by rw [BT.preKeys_toMul, MD.toMul_toBT]⟩
    rw [BT.prePaths_length, MD.size_toBT]
  · exact ⟨BT.predRun_all _ _ (le_refl _),
      BT.prePaths_length _, BT.pre_nodup _, BT.predRun_last _,
      BT.pre_keys _, by rw [BT.preKeys_toMul, PH.toMul_toBT_ph]⟩
